import Mathlib

/-!
Verification of the replication/consistency core of the WhispMesh repository.

The development shallowly embeds the data model and the event handlers of
  - the COPS replica and client together with the `OrdinaryVersion` reference
    version type (`src/cops.rs`), and
  - the PBFT replica and client (`src/pbft/mod.rs`)
as executable Lean functions over association-list maps (the embedding of
Rust's `BTreeMap`, whose entries are sorted by key and duplicate free).
Rust handlers returning `anyhow::Result` are embedded as `Option`-valued
functions; `none` models a fatal error (`bail!` / failed `ensure!` / a hit
`assert!` or `todo!`).  Messages emitted by a handler are collected in an
explicit output list.  `u32` counters that the code increments are embedded
as `Nat` reduced modulo 2^32 at the increment.
-/

/-! ## Association-list maps (embedding of `BTreeMap`)

Keys are `Nat`.  A well-formed map has its keys strictly sorted, which is an
intrinsic invariant of `BTreeMap` values; functions assume but do not require
well-formedness, and separate lemmas show it is preserved.
-/

def alGet {α : Type} (k : Nat) : List (Nat × α) → Option α
  | [] => none
  | p :: t => if p.1 = k then some p.2 else alGet k t

def alInsert {α : Type} (k : Nat) (v : α) : List (Nat × α) → List (Nat × α)
  | [] => [(k, v)]
  | p :: t =>
    if k < p.1 then (k, v) :: p :: t
    else if k = p.1 then (k, v) :: t
    else p :: alInsert k v t

def alRemove {α : Type} (k : Nat) (l : List (Nat × α)) : List (Nat × α) :=
  l.filter (fun p => p.1 ≠ k)

def alKeys {α : Type} (l : List (Nat × α)) : List Nat := l.map Prod.fst

def alSorted {α : Type} (l : List (Nat × α)) : Prop :=
  (alKeys l).Pairwise (· < ·)

instance {α : Type} (l : List (Nat × α)) : Decidable (alSorted l) :=
  List.instDecidablePairwise (alKeys l)

def removeFirst {α : Type} [DecidableEq α] (x : α) : List α → List α
  | [] => []
  | y :: t => if y = x then t else y :: removeFirst x t

/-! ## `OrdinaryVersion` (src/cops.rs)

`OrdinaryVersion` is `BTreeMap<KeyId, u32>`, embedded as a sorted association
list of `Nat` entries.  `u32` is embedded as `Nat`; the only arithmetic the
source performs on entries is `max` and the `+= 1` in `update`, which wraps
modulo 2^32 (`u32` arithmetic).
-/

def u32Mod : Nat := 4294967296

abbrev OrdinaryVersion : Type := List (Nat × Nat)

/-- `OrdinaryVersion::merge`: componentwise `max` over the union of keys. -/
def OrdinaryVersion.merge : OrdinaryVersion → OrdinaryVersion → OrdinaryVersion
  | [], w => w
  | v, [] => v
  | (i, n) :: v, (j, m) :: w =>
    if i < j then (i, n) :: OrdinaryVersion.merge v ((j, m) :: w)
    else if j < i then (j, m) :: OrdinaryVersion.merge ((i, n) :: v) w
    else (i, max n m) :: OrdinaryVersion.merge v w
termination_by a b => a.length + b.length

/-- `OrdinaryVersion::update`: merge `self` with every element of `others`,
then increment the entry at `id` (inserting `0` first when absent), with
`u32` wrap-around at the increment. -/
def OrdinaryVersion.update (self : OrdinaryVersion) (others : List OrdinaryVersion)
    (id : Nat) : OrdinaryVersion :=
  let updated := others.foldl OrdinaryVersion.merge self
  alInsert id (((alGet id updated).getD 0 + 1) % u32Mod) updated

/-- The `ge` helper inside `PartialOrd for OrdinaryVersion`: every nonzero
entry of `other` must be present in `clock` with a value at least as large. -/
def ovGe (clock other : OrdinaryVersion) : Bool :=
  other.all fun p =>
    p.2 = 0 ||
      match alGet p.1 clock with
      | some n => p.2 ≤ n
      | none => false

/-- `PartialOrd::partial_cmp for OrdinaryVersion`. -/
def OrdinaryVersion.partialCmp (a b : OrdinaryVersion) : Option Ordering :=
  match ovGe a b, ovGe b a with
  | true, true => some Ordering.eq
  | true, false => some Ordering.gt
  | false, true => some Ordering.lt
  | false, false => none

/-- `DepOrd::dep_cmp for OrdinaryVersion`. -/
def OrdinaryVersion.depCmp (a b : OrdinaryVersion) (id : Nat) : Ordering :=
  match alGet id a, alGet id b with
  | none, some _ => Ordering.lt
  | some _, none => Ordering.gt
  | none, none => Ordering.eq
  | some n, some m => compare n m

/-- `DepOrd::deps for OrdinaryVersion`: the keys of the map. -/
def OrdinaryVersion.depsOf (a : OrdinaryVersion) : List Nat := alKeys a

/-- `Ordering::is_ge`. -/
def ordIsGE : Ordering → Bool
  | Ordering.lt => false
  | _ => true

/-- `OrdinaryVersionService`: replies to `Update { id, prev, deps }` with
`UpdateOk { id, version_deps: prev.update(deps.iter(), id) }`. -/
def OrdinaryVersionService.reply (id : Nat) (prev : OrdinaryVersion)
    (deps : List OrdinaryVersion) : OrdinaryVersion :=
  OrdinaryVersion.update prev deps id

def ovSorted (v : OrdinaryVersion) : Prop := alSorted v

instance (v : OrdinaryVersion) : Decidable (ovSorted v) :=
  inferInstanceAs (Decidable (alSorted v))

def combineMax : Option Nat → Option Nat → Option Nat
  | some n, some m => some (max n m)
  | some n, none => some n
  | none, some m => some m
  | none, none => none

def ovBound (B : Nat) (v : OrdinaryVersion) : Prop := ∀ p ∈ v, p.2 ≤ B

instance (B : Nat) (v : OrdinaryVersion) : Decidable (ovBound B v) :=
  inferInstanceAs (Decidable (∀ p ∈ v, p.2 ≤ B))

/-- Pointwise value of a merge fold: the running `combineMax` of the entries
for `k` in the accumulator and in each merged version. -/
def mergedGet (prev : OrdinaryVersion) (deps : List OrdinaryVersion)
    (k : Nat) : Option Nat :=
  deps.foldl (fun acc d => combineMax acc (alGet k d)) (alGet k prev)

/-! ## COPS replica and client (src/cops.rs)

Addresses and timer ids are embedded as `Nat`; values as `String`.  The
replica's event handlers return `none` exactly where the source bails.
-/

structure CopsPut where
  key : Nat
  value : String
  deps : List (Nat × OrdinaryVersion)
  client_addr : Nat
  deriving DecidableEq, Repr

structure CopsGet where
  key : Nat
  client_addr : Nat
  deriving DecidableEq, Repr

structure SyncKey where
  key : Nat
  value : String
  version_deps : OrdinaryVersion
  deriving DecidableEq, Repr

structure KeyState where
  value : String
  version_deps : OrdinaryVersion
  pending_puts : List CopsPut
  deriving DecidableEq, Repr

structure CopsReplica where
  store : List (Nat × KeyState)
  version_zero : OrdinaryVersion
  pending_sync_keys : List SyncKey
  deriving DecidableEq, Repr

inductive CopsEvent
  | RecvGet (g : CopsGet)
  | RecvPut (p : CopsPut)
  | RecvSyncKey (k : SyncKey)
  | UpdateOk (id : Nat) (version_deps : OrdinaryVersion)
  deriving DecidableEq, Repr

inductive CopsOut
  | SendGetOk (addr : Nat) (value : String) (version_deps : OrdinaryVersion)
  | SendPutOk (addr : Nat) (version_deps : OrdinaryVersion)
  | BroadcastSyncKey (k : SyncKey)
  | SendUpdate (id : Nat) (prev : OrdinaryVersion) (deps : List OrdinaryVersion)
  deriving DecidableEq, Repr

/-- `store.get(id).map(|s| &s.version_deps).unwrap_or(&version_zero)`. -/
def CopsReplica.effVersion (s : CopsReplica) (id : Nat) : OrdinaryVersion :=
  match alGet id s.store with
  | some st => st.version_deps
  | none => s.version_zero

/-- The dependency check in `OnEvent<Recv<Put>>`. -/
def CopsReplica.putDepsOk (s : CopsReplica)
    (deps : List (Nat × OrdinaryVersion)) : Bool :=
  deps.all fun p => ordIsGE ((s.effVersion p.1).depCmp p.2 p.1)

/-- `OnEvent<Recv<Get>> for Replica`. -/
def CopsReplica.handleGet (s : CopsReplica) (g : CopsGet) :
    Option (CopsReplica × List CopsOut) :=
  match alGet g.key s.store with
  | none => none
  | some st =>
    some (s, [CopsOut.SendGetOk g.client_addr st.value st.version_deps])

/-- `OnEvent<Recv<Put>> for Replica`. -/
def CopsReplica.handlePut (s : CopsReplica) (put : CopsPut) :
    Option (CopsReplica × List CopsOut) :=
  if ¬ s.putDepsOk put.deps then some (s, [])
  else
    let st :=
      (alGet put.key s.store).getD
        { value := "", version_deps := s.version_zero, pending_puts := [] }
    let st' := { st with pending_puts := st.pending_puts ++ [put] }
    let s' := { s with store := alInsert put.key st' s.store }
    if st'.pending_puts.length = 1 then
      some (s', [CopsOut.SendUpdate put.key st'.version_deps
        (put.deps.map Prod.snd)])
    else some (s', [])

/-- `Replica::can_sync`. -/
def CopsReplica.canSync (s : CopsReplica) (k : SyncKey) : Bool :=
  (OrdinaryVersion.depsOf k.version_deps).all fun id =>
    decide (id = k.key) ||
      ordIsGE ((s.effVersion id).depCmp k.version_deps id)

/-- `Replica::apply_sync`. -/
def CopsReplica.applySync (s : CopsReplica) (k : SyncKey) :
    Option CopsReplica :=
  match alGet k.key s.store with
  | some st =>
    if ¬ st.pending_puts.isEmpty then none
    else if k.version_deps.partialCmp st.version_deps = some Ordering.gt then
      let st2 : KeyState :=
        { st with value := k.value, version_deps := k.version_deps }
      some { s with store := alInsert k.key st2 s.store }
    else some s
  | none =>
    let st2 : KeyState :=
      { value := k.value, version_deps := k.version_deps, pending_puts := [] }
    some { s with store := alInsert k.key st2 s.store }

/-- The single pass over the taken `pending_sync_keys` buffer in
`OnEvent<Recv<SyncKey>>`: each buffered key is re-checked once, in order,
against the evolving state; an unsyncable key is pushed back. -/
def CopsReplica.drainSync : CopsReplica → List SyncKey → Option CopsReplica
  | s, [] => some s
  | s, k :: rest =>
    if s.canSync k then
      match s.applySync k with
      | none => none
      | some s' => CopsReplica.drainSync s' rest
    else
      CopsReplica.drainSync
        { s with pending_sync_keys := s.pending_sync_keys ++ [k] } rest

/-- `OnEvent<Recv<SyncKey>> for Replica`. -/
def CopsReplica.handleSyncKey (s : CopsReplica) (k : SyncKey) :
    Option (CopsReplica × List CopsOut) :=
  if ¬ s.canSync k then
    some ({ s with pending_sync_keys := s.pending_sync_keys ++ [k] }, [])
  else
    match s.applySync k with
    | none => none
    | some s' =>
      match CopsReplica.drainSync { s' with pending_sync_keys := [] }
          s'.pending_sync_keys with
      | none => none
      | some s'' => some (s'', [])

/-- `OnEvent<events::UpdateOk> for Replica`. -/
def CopsReplica.handleUpdateOk (s : CopsReplica) (id : Nat)
    (version_deps : OrdinaryVersion) : Option (CopsReplica × List CopsOut) :=
  match alGet id s.store with
  | none => none
  | some st =>
    match st.pending_puts with
    | [] => none
    | put :: rest =>
      if ¬ (put.deps.all fun p =>
          version_deps.partialCmp p.2 = some Ordering.gt) then none
      else if ¬ (version_deps.partialCmp st.version_deps =
          some Ordering.gt) then none
      else
        let st' : KeyState :=
          { st with value := put.value, version_deps := version_deps,
                    pending_puts := rest }
        let outNext : List CopsOut :=
          match rest with
          | [] => []
          | next :: _ =>
            [CopsOut.SendUpdate id version_deps (next.deps.map Prod.snd)]
        some ({ s with store := alInsert id st' s.store },
          CopsOut.SendPutOk put.client_addr version_deps ::
            CopsOut.BroadcastSyncKey
              { key := put.key, value := put.value,
                version_deps := version_deps } :: outNext)

/-- One COPS replica event step. -/
def copsStep (s : CopsReplica) : CopsEvent → Option (CopsReplica × List CopsOut)
  | CopsEvent.RecvGet g => s.handleGet g
  | CopsEvent.RecvPut p => s.handlePut p
  | CopsEvent.RecvSyncKey k => s.handleSyncKey k
  | CopsEvent.UpdateOk id v => s.handleUpdateOk id v

structure CopsClient where
  deps : List (Nat × OrdinaryVersion)
  working_key : Option (Nat × Nat)
  deriving DecidableEq, Repr

inductive CopsClientOut
  | CancelTimer (t : Nat)
  | UpcallOk
  | UpcallReadOk (vs : List String)
  deriving DecidableEq, Repr

/-- `OnEvent<Recv<PutOk>> for Client`: the working key is taken before the
version check. -/
def CopsClient.handlePutOk (c : CopsClient) (version_deps : OrdinaryVersion) :
    Option (CopsClient × List CopsClientOut) :=
  match c.working_key with
  | none => none
  | some (key, timer_id) =>
    let c' := { c with working_key := none }
    if ¬ (c.deps.all fun p =>
        version_deps.partialCmp p.2 = some Ordering.gt) then
      some (c', [])
    else
      some ({ c' with deps := [(key, version_deps)] },
        [CopsClientOut.CancelTimer timer_id, CopsClientOut.UpcallOk])

/-- `OnEvent<Recv<GetOk>> for Client`: the working key is taken before the
dependency check. -/
def CopsClient.handleGetOk (c : CopsClient) (value : String)
    (version_deps : OrdinaryVersion) :
    Option (CopsClient × List CopsClientOut) :=
  match c.working_key with
  | none => none
  | some (key, timer_id) =>
    let c' := { c with working_key := none }
    if ¬ (c.deps.all fun p => ordIsGE (version_deps.depCmp p.2 key)) then
      some (c', [])
    else
      some ({ c' with deps := alInsert key version_deps c.deps },
        [CopsClientOut.CancelTimer timer_id,
          CopsClientOut.UpcallReadOk [value]])

/-! ## PBFT client (src/pbft/mod.rs)

`Payload` results and addresses are embedded as `Nat`.
-/

structure Reply where
  seq : Nat
  result : Nat
  view_num : Nat
  replica_id : Nat
  deriving DecidableEq, Repr

structure ClientInvoke where
  op : Nat
  resend_timer : Nat
  replies : List (Nat × Reply)
  deriving DecidableEq, Repr

structure PbftClient where
  id : Nat
  seq : Nat
  view_num : Nat
  num_replica : Nat
  num_faulty : Nat
  invoke : Option ClientInvoke
  deriving DecidableEq, Repr

inductive PbftClientOut
  | CancelTimer (t : Nat)
  | Upcall (client_id : Nat) (result : Nat)
  deriving DecidableEq, Repr

/-- `OnEvent<Recv<Reply>> for Client`. -/
def PbftClient.handleReply (c : PbftClient) (r : Reply) :
    PbftClient × List PbftClientOut :=
  if r.seq ≠ c.seq then (c, [])
  else
    match c.invoke with
    | none => (c, [])
    | some inv =>
      let reps := alInsert r.replica_id r inv.replies
      if (reps.filter fun p => p.2.result = r.result).length =
          c.num_faulty + 1 then
        ({ c with view_num := r.view_num, invoke := none },
          [PbftClientOut.CancelTimer inv.resend_timer,
            PbftClientOut.Upcall c.id r.result])
      else
        ({ c with invoke := some { inv with replies := reps } }, [])

/-! ## Claim C3: the COPS store is monotone -/

/-- Every stored `version_deps` is a well-formed (sorted) `BTreeMap` value. -/
def CopsStoreWF (s : CopsReplica) : Prop :=
  ∀ k st, alGet k s.store = some st → ovSorted st.version_deps

/-- Every buffered `SyncKey` carries a well-formed `BTreeMap` value. -/
def CopsPendingWF (s : CopsReplica) : Prop :=
  ∀ x ∈ s.pending_sync_keys, ovSorted x.version_deps

/-- Incoming versions are well-formed `BTreeMap` values (intrinsic to
deserialized `BTreeMap`s). -/
def CopsEventWF : CopsEvent → Prop
  | CopsEvent.RecvSyncKey k => ovSorted k.version_deps
  | CopsEvent.UpdateOk _ v => ovSorted v
  | _ => True

/-- Per-key growth of the store under `ovGe`. -/
def storeGeMono (s s' : CopsReplica) : Prop :=
  ∀ k st, alGet k s.store = some st →
    ∃ st', alGet k s'.store = some st' ∧
      ovGe st'.version_deps st.version_deps = true

/-! ## PBFT replica (src/pbft/mod.rs)

The replica is embedded as an explicit state machine.  `H256` digests are
embedded as `Nat` with `digestOf` standing for `sha256` of a request batch;
the application is the echo app (`result = op`), the app itself being
outside the specified core.  Work submitted to the crypto worker is tracked
in explicit in-flight lists: a `Signed`/`Verified` event can only be
delivered for an item previously submitted (and, for a pre-prepare, whose
batch hashes to the digest, since the verification closure checks that);
signature checking itself is adversarial — a faulty replica signs what it
likes, so delivery of any submitted item models a verifiable signature. -/

structure Request where
  client_id : Nat
  client_addr : Nat
  seq : Nat
  op : Nat
  deriving DecidableEq, Repr

structure PrePrepare where
  view_num : Nat
  op_num : Nat
  digest : Nat
  deriving DecidableEq, Repr

structure Prepare where
  view_num : Nat
  op_num : Nat
  digest : Nat
  replica_id : Nat
  deriving DecidableEq, Repr

structure Commit where
  view_num : Nat
  op_num : Nat
  digest : Nat
  replica_id : Nat
  deriving DecidableEq, Repr

structure LogEntry where
  view_num : Nat
  pre_prepare : Option PrePrepare
  requests : List Request
  prepares : List (Nat × Prepare)
  commits : List (Nat × Commit)
  deriving DecidableEq, Repr

/-- `LogEntry::default()`. -/
def emptyLogEntry : LogEntry :=
  { view_num := 0, pre_prepare := none, requests := [], prepares := [],
    commits := [] }

/-- The digest of a request batch (standing for `requests.sha256()`). -/
def digestOf (reqs : List Request) : Nat :=
  reqs.foldr
    (fun r h =>
      Nat.pair (Nat.pair (Nat.pair r.client_id r.client_addr)
        (Nat.pair r.seq r.op)) h + 1) 0

structure PbftReplica where
  id : Nat
  num_replica : Nat
  num_faulty : Nat
  replies : List (Nat × (Nat × Option Reply))
  requests : List Request
  view_num : Nat
  op_num : Nat
  log : List LogEntry
  prepare_quorums : List (Nat × List (Nat × Prepare))
  commit_quorums : List (Nat × List (Nat × Commit))
  commit_num : Nat
  pending_prepares : List (Nat × List Prepare)
  pending_commits : List (Nat × List Commit)
  inflight_sign_pre_prepares : List (PrePrepare × List Request)
  inflight_verify_pre_prepares : List (PrePrepare × List Request)
  inflight_sign_prepares : List Prepare
  inflight_verify_prepares : List Prepare
  inflight_sign_commits : List Commit
  inflight_verify_commits : List Commit
  deriving DecidableEq, Repr

inductive PbftOut
  | SendReply (addr : Nat) (r : Reply)
  | BroadcastPrePrepare (pp : PrePrepare) (reqs : List Request)
  | BroadcastPrepare (p : Prepare)
  | BroadcastCommit (c : Commit)
  deriving DecidableEq, Repr

inductive PbftEvent
  | RecvRequest (r : Request)
  | SignedPrePrepare (pp : PrePrepare) (reqs : List Request)
  | RecvPrePrepare (pp : PrePrepare) (reqs : List Request)
  | VerifiedPrePrepare (pp : PrePrepare) (reqs : List Request)
  | SignedPrepare (p : Prepare)
  | RecvPrepare (p : Prepare)
  | VerifiedPrepare (p : Prepare)
  | SignedCommit (c : Commit)
  | RecvCommit (c : Commit)
  | VerifiedCommit (c : Commit)
  deriving DecidableEq, Repr

/-- `Replica::is_primary`. -/
def PbftReplica.isPrimary (s : PbftReplica) : Bool :=
  s.id % s.num_replica = s.view_num

/-- `Replica::close_batch` (NUM_CONCURRENT_PRE_PREPARE = 1, batch cap 100). -/
def PbftReplica.closeBatch (s : PbftReplica) :
    Option (PbftReplica × List PbftOut) :=
  if ¬ s.isPrimary then none
  else if s.requests.isEmpty then none
  else
    let s1 := { s with op_num := s.op_num + 1 }
    let batch := s1.requests.take 100
    let pp : PrePrepare :=
      { view_num := s1.view_num, op_num := s1.op_num,
        digest := digestOf batch }
    some ({ s1 with
              requests := s1.requests.drop 100,
              inflight_sign_pre_prepares :=
                s1.inflight_sign_pre_prepares ++ [(pp, batch)] }, [])

/-- `OnEvent<Recv<Request>> for Replica` (the not-primary forward is a
`todo!` in the source, embedded as a fatal `none`). -/
def PbftReplica.handleRequest (s : PbftReplica) (r : Request) :
    Option (PbftReplica × List PbftOut) :=
  let stale : Option (Option (PbftReplica × List PbftOut)) :=
    match alGet r.client_id s.replies with
    | some (seq, rep) =>
      if seq > r.seq then some (some (s, []))
      else if seq = r.seq then
        some (some (s,
          match rep with
          | some rp => [PbftOut.SendReply r.client_addr rp]
          | none => []))
      else none
    | none => none
  match stale with
  | some result => result
  | none =>
    if ¬ s.isPrimary then none
    else
      let s1 := { s with
        replies := alInsert r.client_id (r.seq, none) s.replies,
        requests := s.requests ++ [r] }
      if s1.op_num < s1.commit_num + 1 then s1.closeBatch
      else some (s1, [])

/-- `log.resize_with(n, Default::default)` (only ever called to grow). -/
def resizeLog (log : List LogEntry) (n : Nat) : List LogEntry :=
  log ++ List.replicate (n - log.length) emptyLogEntry

/-- `OnEvent<(Signed<PrePrepare>, Vec<Request>)> for Replica`. -/
def PbftReplica.handleSignedPrePrepare (s : PbftReplica) (pp : PrePrepare)
    (reqs : List Request) : Option (PbftReplica × List PbftOut) :=
  if pp.view_num ≠ s.view_num then some (s, [])
  else
    let log :=
      if (s.log.get? pp.op_num).isNone then resizeLog s.log (pp.op_num + 1)
      else s.log
    match log.get? pp.op_num with
    | none => none
    | some entry =>
      if entry.pre_prepare.isSome then none
      else
        let entry' := { entry with
                          pre_prepare := some pp,
                          view_num := s.view_num, requests := reqs }
        some ({ s with log := log.set pp.op_num entry' },
          [PbftOut.BroadcastPrePrepare pp reqs])

/-- `OnEvent<Recv<(Verifiable<PrePrepare>, Vec<Request>)>> for Replica`. -/
def PbftReplica.handleRecvPrePrepare (s : PbftReplica) (pp : PrePrepare)
    (reqs : List Request) : Option (PbftReplica × List PbftOut) :=
  if pp.view_num ≠ s.view_num then
    if pp.view_num > s.view_num then none
    else some (s, [])
  else
    let dup :=
      match s.log.get? pp.op_num with
      | some entry => entry.pre_prepare.isSome
      | none => false
    if dup then some (s, [])
    else
      some ({ s with
                inflight_verify_pre_prepares :=
                  s.inflight_verify_pre_prepares ++ [(pp, reqs)] }, [])

/-- `OnEvent<(Verified<PrePrepare>, Vec<Request>)> for Replica`. -/
def PbftReplica.handleVerifiedPrePrepare (s : PbftReplica) (pp : PrePrepare)
    (reqs : List Request) : Option (PbftReplica × List PbftOut) :=
  if pp.view_num ≠ s.view_num then some (s, [])
  else
    let log :=
      if (s.log.get? pp.op_num).isNone then resizeLog s.log (pp.op_num + 1)
      else s.log
    match log.get? pp.op_num with
    | none => none
    | some entry =>
      if entry.pre_prepare.isSome then some ({ s with log := log }, [])
      else
        let entry' := { entry with
                          pre_prepare := some pp,
                          view_num := s.view_num, requests := reqs }
        let prepare : Prepare :=
          { view_num := s.view_num, op_num := pp.op_num,
            digest := pp.digest, replica_id := s.id }
        let pq :=
          match alGet pp.op_num s.prepare_quorums with
          | some q => alInsert pp.op_num
              (q.filter fun e => e.2.digest = pp.digest) s.prepare_quorums
          | none => s.prepare_quorums
        let cq :=
          match alGet pp.op_num s.commit_quorums with
          | some q => alInsert pp.op_num
              (q.filter fun e => e.2.digest = pp.digest) s.commit_quorums
          | none => s.commit_quorums
        some ({ s with
                  log := log.set pp.op_num entry',
                  prepare_quorums := pq, commit_quorums := cq,
                  inflight_sign_prepares :=
                    s.inflight_sign_prepares ++ [prepare] }, [])

/-- `Replica::insert_prepare`. -/
def PbftReplica.insertPrepare (s : PbftReplica) (p : Prepare) :
    Option (PbftReplica × List PbftOut) :=
  let q := alInsert p.replica_id p ((alGet p.op_num s.prepare_quorums).getD [])
  let s1 := { s with prepare_quorums := alInsert p.op_num q s.prepare_quorums }
  if q.length + 1 < s1.num_replica - s1.num_faulty then some (s1, [])
  else
    match s1.log.get? p.op_num with
    | none => some (s1, [])
    | some entry =>
      if ¬ entry.prepares.isEmpty then none
      else
        let entry' := { entry with prepares := q }
        let commit : Commit :=
          { view_num := s1.view_num, op_num := p.op_num, digest := p.digest,
            replica_id := s1.id }
        some ({ s1 with
                  log := s1.log.set p.op_num entry',
                  prepare_quorums := alRemove p.op_num s1.prepare_quorums,
                  inflight_sign_commits :=
                    s1.inflight_sign_commits ++ [commit] }, [])

/-- `OnEvent<Signed<Prepare>> for Replica` (the direct `self.log[op]` index
panics when out of range, embedded as `none`). -/
def PbftReplica.handleSignedPrepare (s : PbftReplica) (p : Prepare) :
    Option (PbftReplica × List PbftOut) :=
  if p.view_num ≠ s.view_num then some (s, [])
  else
    match s.log.get? p.op_num with
    | none => none
    | some entry =>
      if entry.prepares.isEmpty then
        match s.insertPrepare p with
        | none => none
        | some (s', out2) => some (s', PbftOut.BroadcastPrepare p :: out2)
      else some (s, [PbftOut.BroadcastPrepare p])

/-- `Replica::submit_prepare`: `true` means a verification task was
submitted (recorded in flight). -/
def PbftReplica.submitPrepare (s : PbftReplica) (p : Prepare) :
    Option (PbftReplica × Bool) :=
  if p.view_num ≠ s.view_num then
    if p.view_num > s.view_num then none
    else some (s, false)
  else
    let dup :=
      match s.log.get? p.op_num with
      | some entry =>
        if ¬ entry.prepares.isEmpty then true
        else
          match entry.pre_prepare with
          | some pp => p.digest ≠ pp.digest
          | none => false
      | none => false
    if dup then some (s, false)
    else
      some ({ s with
                inflight_verify_prepares :=
                  s.inflight_verify_prepares ++ [p] }, true)

/-- `OnEvent<Recv<Verifiable<Prepare>>> for Replica`. -/
def PbftReplica.handleRecvPrepare (s : PbftReplica) (p : Prepare) :
    Option (PbftReplica × List PbftOut) :=
  match alGet p.op_num s.pending_prepares with
  | some lst =>
    some ({ s with
              pending_prepares :=
                alInsert p.op_num (lst ++ [p]) s.pending_prepares }, [])
  | none =>
    match s.submitPrepare p with
    | none => none
    | some (s1, true) =>
      some ({ s1 with
                pending_prepares :=
                  alInsert p.op_num [] s1.pending_prepares }, [])
    | some (s1, false) => some (s1, [])

/-- The drain loop in `OnEvent<Verified<Prepare>>`: pop from the back of
`pending_prepares[op]` until a task is submitted or the list empties (then
remove the map entry).  Fuel is the pending list length plus one, which the
loop never exhausts. -/
def PbftReplica.drainPP (op : Nat) : Nat → PbftReplica → Option PbftReplica
  | 0, s => some s
  | fuel + 1, s =>
    match alGet op s.pending_prepares with
    | none => some s
    | some lst =>
      match lst.getLast? with
      | none => some { s with
                         pending_prepares := alRemove op s.pending_prepares }
      | some p =>
        let s1 := { s with
                      pending_prepares :=
                        alInsert op lst.dropLast s.pending_prepares }
        match s1.submitPrepare p with
        | none => none
        | some (s2, true) => some s2
        | some (s2, false) => PbftReplica.drainPP op fuel s2

/-- `OnEvent<Verified<Prepare>> for Replica`. -/
def PbftReplica.handleVerifiedPrepare (s : PbftReplica) (p : Prepare) :
    Option (PbftReplica × List PbftOut) :=
  if p.view_num ≠ s.view_num then some (s, [])
  else
    match s.insertPrepare p with
    | none => none
    | some (s1, out) =>
      match PbftReplica.drainPP p.op_num
          (((alGet p.op_num s1.pending_prepares).getD []).length + 1) s1 with
      | none => none
      | some s2 => some (s2, out)

/-- The body of the commit loop: execute a committed entry's requests in
order, recording a per-client reply when its seq is not older than the
cached one, and unicasting the reply. -/
def PbftReplica.execRequests : PbftReplica → List Request →
    PbftReplica × List PbftOut
  | s, [] => (s, [])
  | s, r :: rest =>
    let reply : Reply :=
      { seq := r.seq, result := r.op, view_num := s.view_num,
        replica_id := s.id }
    let doInsert : Bool :=
      match alGet r.client_id s.replies with
      | some (seq, _) => seq ≤ r.seq
      | none => true
    let s1 :=
      if doInsert then
        { s with replies := alInsert r.client_id (r.seq, some reply) s.replies }
      else s
    let next := PbftReplica.execRequests s1 rest
    (next.1, PbftOut.SendReply r.client_addr reply :: next.2)

/-- The `while let Some(entry) = self.log.get(commit_num + 1)` loop of
`insert_commit`, advancing `commit_num` over the contiguous committed
prefix.  Fuel `log.length` bounds the iterations. -/
def PbftReplica.commitLoop : Nat → PbftReplica → PbftReplica × List PbftOut
  | 0, s => (s, [])
  | fuel + 1, s =>
    match s.log.get? (s.commit_num + 1) with
    | none => (s, [])
    | some entry =>
      if entry.commits.isEmpty then (s, [])
      else
        let s1 := { s with commit_num := s.commit_num + 1 }
        let step1 := PbftReplica.execRequests s1 entry.requests
        let step2 := PbftReplica.commitLoop fuel step1.1
        (step2.1, step1.2 ++ step2.2)

/-- The trailing `while is_primary && !requests.is_empty() && op_num <=
commit_num + 1` batching loop of `insert_commit`. -/
def PbftReplica.closeBatchLoop : Nat → PbftReplica →
    Option (PbftReplica × List PbftOut)
  | 0, s => some (s, [])
  | fuel + 1, s =>
    if s.isPrimary ∧ ¬ s.requests.isEmpty ∧
        s.op_num ≤ s.commit_num + 1 then
      match s.closeBatch with
      | none => none
      | some (s1, out1) =>
        match PbftReplica.closeBatchLoop fuel s1 with
        | none => none
        | some (s2, out2) => some (s2, out1 ++ out2)
    else some (s, [])

/-- `Replica::insert_commit`. -/
def PbftReplica.insertCommit (s : PbftReplica) (c : Commit) :
    Option (PbftReplica × List PbftOut) :=
  let q := alInsert c.replica_id c ((alGet c.op_num s.commit_quorums).getD [])
  let s1 := { s with commit_quorums := alInsert c.op_num q s.commit_quorums }
  if q.length < s1.num_replica - s1.num_faulty then some (s1, [])
  else
    match s1.log.get? c.op_num with
    | none => some (s1, [])
    | some entry =>
      if ¬ entry.commits.isEmpty then none
      else if entry.prepares.isEmpty then some (s1, [])
      else
        let entry' := { entry with commits := q }
        let s2 := { s1 with
                      log := s1.log.set c.op_num entry',
                      commit_quorums := alRemove c.op_num s1.commit_quorums }
        let step1 := PbftReplica.commitLoop s2.log.length s2
        match PbftReplica.closeBatchLoop (step1.1.requests.length + 1)
            step1.1 with
        | none => none
        | some (s4, out2) => some (s4, step1.2 ++ out2)

/-- `OnEvent<Signed<Commit>> for Replica`. -/
def PbftReplica.handleSignedCommit (s : PbftReplica) (c : Commit) :
    Option (PbftReplica × List PbftOut) :=
  if c.view_num ≠ s.view_num then some (s, [])
  else
    match s.log.get? c.op_num with
    | none => none
    | some entry =>
      if entry.commits.isEmpty then
        match s.insertCommit c with
        | none => none
        | some (s', out2) => some (s', PbftOut.BroadcastCommit c :: out2)
      else some (s, [PbftOut.BroadcastCommit c])

/-- `Replica::submit_commit`. -/
def PbftReplica.submitCommit (s : PbftReplica) (c : Commit) :
    Option (PbftReplica × Bool) :=
  if c.view_num ≠ s.view_num then
    if c.view_num > s.view_num then none
    else some (s, false)
  else
    let dup :=
      match s.log.get? c.op_num with
      | some entry =>
        if ¬ entry.commits.isEmpty then true
        else
          match entry.pre_prepare with
          | some pp => c.digest ≠ pp.digest
          | none => false
      | none => false
    if dup then some (s, false)
    else
      some ({ s with
                inflight_verify_commits :=
                  s.inflight_verify_commits ++ [c] }, true)

/-- `OnEvent<Recv<Verifiable<Commit>>> for Replica`. -/
def PbftReplica.handleRecvCommit (s : PbftReplica) (c : Commit) :
    Option (PbftReplica × List PbftOut) :=
  match alGet c.op_num s.pending_commits with
  | some lst =>
    some ({ s with
              pending_commits :=
                alInsert c.op_num (lst ++ [c]) s.pending_commits }, [])
  | none =>
    match s.submitCommit c with
    | none => none
    | some (s1, true) =>
      some ({ s1 with
                pending_commits :=
                  alInsert c.op_num [] s1.pending_commits }, [])
    | some (s1, false) => some (s1, [])

/-- The drain loop in `OnEvent<Verified<Commit>>`. -/
def PbftReplica.drainPC (op : Nat) : Nat → PbftReplica → Option PbftReplica
  | 0, s => some s
  | fuel + 1, s =>
    match alGet op s.pending_commits with
    | none => some s
    | some lst =>
      match lst.getLast? with
      | none => some { s with
                         pending_commits := alRemove op s.pending_commits }
      | some c =>
        let s1 := { s with
                      pending_commits :=
                        alInsert op lst.dropLast s.pending_commits }
        match s1.submitCommit c with
        | none => none
        | some (s2, true) => some s2
        | some (s2, false) => PbftReplica.drainPC op fuel s2

/-- `OnEvent<Verified<Commit>> for Replica`. -/
def PbftReplica.handleVerifiedCommit (s : PbftReplica) (c : Commit) :
    Option (PbftReplica × List PbftOut) :=
  if c.view_num ≠ s.view_num then some (s, [])
  else
    match s.insertCommit c with
    | none => none
    | some (s1, out) =>
      match PbftReplica.drainPC c.op_num
          (((alGet c.op_num s1.pending_commits).getD []).length + 1) s1 with
      | none => none
      | some s2 => some (s2, out)

/-- One PBFT replica event step.  A `Signed`/`Verified` event consumes a
matching in-flight crypto task; delivery order across tasks is adversarial,
as the crypto worker gives no ordering guarantee. -/
def pbftStep (s : PbftReplica) : PbftEvent →
    Option (PbftReplica × List PbftOut)
  | PbftEvent.RecvRequest r => s.handleRequest r
  | PbftEvent.SignedPrePrepare pp reqs =>
    if (pp, reqs) ∈ s.inflight_sign_pre_prepares then
      PbftReplica.handleSignedPrePrepare
        { s with
            inflight_sign_pre_prepares :=
              removeFirst (pp, reqs) s.inflight_sign_pre_prepares } pp reqs
    else none
  | PbftEvent.RecvPrePrepare pp reqs => s.handleRecvPrePrepare pp reqs
  | PbftEvent.VerifiedPrePrepare pp reqs =>
    if (pp, reqs) ∈ s.inflight_verify_pre_prepares ∧ digestOf reqs = pp.digest
    then
      PbftReplica.handleVerifiedPrePrepare
        { s with
            inflight_verify_pre_prepares :=
              removeFirst (pp, reqs) s.inflight_verify_pre_prepares } pp reqs
    else none
  | PbftEvent.SignedPrepare p =>
    if p ∈ s.inflight_sign_prepares then
      PbftReplica.handleSignedPrepare
        { s with
            inflight_sign_prepares :=
              removeFirst p s.inflight_sign_prepares } p
    else none
  | PbftEvent.RecvPrepare p => s.handleRecvPrepare p
  | PbftEvent.VerifiedPrepare p =>
    if p ∈ s.inflight_verify_prepares then
      PbftReplica.handleVerifiedPrepare
        { s with
            inflight_verify_prepares :=
              removeFirst p s.inflight_verify_prepares } p
    else none
  | PbftEvent.SignedCommit c =>
    if c ∈ s.inflight_sign_commits then
      PbftReplica.handleSignedCommit
        { s with
            inflight_sign_commits :=
              removeFirst c s.inflight_sign_commits } c
    else none
  | PbftEvent.RecvCommit c => s.handleRecvCommit c
  | PbftEvent.VerifiedCommit c =>
    if c ∈ s.inflight_verify_commits then
      PbftReplica.handleVerifiedCommit
        { s with
            inflight_verify_commits :=
              removeFirst c s.inflight_verify_commits } c
    else none

/-- `Replica::new`. -/
def pbftInit (id n f : Nat) : PbftReplica :=
  { id := id, num_replica := n, num_faulty := f, replies := [],
    requests := [], view_num := 0, op_num := 0, log := [],
    prepare_quorums := [], commit_quorums := [], commit_num := 0,
    pending_prepares := [], pending_commits := [],
    inflight_sign_pre_prepares := [], inflight_verify_pre_prepares := [],
    inflight_sign_prepares := [], inflight_verify_prepares := [],
    inflight_sign_commits := [], inflight_verify_commits := [] }

def pbftSteps (s : PbftReplica) : List PbftEvent → Option PbftReplica
  | [] => some s
  | e :: es =>
    match pbftStep s e with
    | none => none
    | some (s', _) => pbftSteps s' es

/-- Reachability of a replica state from some fresh replica through a
sequence of delivered events. -/
def PbftReachable (s : PbftReplica) : Prop :=
  ∃ id n f es, pbftSteps (pbftInit id n f) es = some s

/-! ### Field-preservation and monotonicity lemmas for the PBFT replica -/

/-- Per-client growth of the cached reply seq. -/
def repliesMono (s s' : PbftReplica) : Prop :=
  ∀ cid p, alGet cid s.replies = some p →
    ∃ p', alGet cid s'.replies = some p' ∧ p.1 ≤ p'.1

/-- Quorum maps hold sorted (hence duplicate-free) replica-id keys. -/
def QWF (s : PbftReplica) : Prop :=
  (∀ op q, alGet op s.prepare_quorums = some q → alSorted q) ∧
  (∀ op q, alGet op s.commit_quorums = some q → alSorted q)

/-- Per-step quorum-counting property of one log slot: when the slot's
`prepares` (resp. `commits`) goes from empty to non-empty across a step, the
new quorum holds at least `n - f - 1` (resp. `n - f`) entries keyed by
pairwise-distinct replica ids, a commit fill requires `prepares` already
non-empty, and a slot fresh in the log starts with both fields empty. -/
def C1Core (s s' : PbftReplica) (op : Nat) : Prop :=
  (∀ en en', s.log.get? op = some en → s'.log.get? op = some en' →
    ((en.prepares = [] → en'.prepares ≠ [] →
        en'.prepares.length ≥ s.num_replica - s.num_faulty - 1 ∧
        (alKeys en'.prepares).Pairwise (· ≠ ·)) ∧
     (en.commits = [] → en'.commits ≠ [] →
        en'.commits.length ≥ s.num_replica - s.num_faulty ∧
        (alKeys en'.commits).Pairwise (· ≠ ·) ∧ en.prepares ≠ []))) ∧
  (∀ en', s.log.get? op = none → s'.log.get? op = some en' →
    en'.prepares = [] ∧ en'.commits = [])

def c1Events5 : List PbftEvent :=
  [PbftEvent.RecvPrepare (Prepare.mk 0 1 0 2),
   PbftEvent.VerifiedPrepare (Prepare.mk 0 1 0 2),
   PbftEvent.RecvPrepare (Prepare.mk 0 1 1 3),
   PbftEvent.RecvPrePrepare (PrePrepare.mk 0 1 0) [],
   PbftEvent.VerifiedPrePrepare (PrePrepare.mk 0 1 0) []]

def c1Event6 : PbftEvent := PbftEvent.VerifiedPrepare (Prepare.mk 0 1 1 3)

def c1S5 : PbftReplica :=
  (pbftSteps (pbftInit 1 4 1) c1Events5).getD (pbftInit 0 0 0)

def c1S6 : PbftReplica × List PbftOut :=
  (pbftStep c1S5 c1Event6).getD (pbftInit 0 0 0, [])

def c1WEvents3 : List PbftEvent :=
  [PbftEvent.RecvPrePrepare (PrePrepare.mk 0 1 0) [],
   PbftEvent.VerifiedPrePrepare (PrePrepare.mk 0 1 0) [],
   PbftEvent.RecvPrepare (Prepare.mk 0 1 0 0)]

def c1WEvent4 : PbftEvent := PbftEvent.VerifiedPrepare (Prepare.mk 0 1 0 0)

def c1WS : PbftReplica :=
  (pbftSteps (pbftInit 1 2 1) c1WEvents3).getD (pbftInit 0 0 0)

def c1WSpair : PbftReplica × List PbftOut :=
  (pbftStep c1WS c1WEvent4).getD (pbftInit 0 0 0, [])

@[simp] theorem alKeys_nil {α : Type} : alKeys ([] : List (Nat × α)) = [] := rfl

@[simp] theorem alKeys_cons {α : Type} (p : Nat × α) (t : List (Nat × α)) :
    alKeys (p :: t) = p.1 :: alKeys t := rfl

theorem alGet_cons {α : Type} (k : Nat) (p : Nat × α) (t : List (Nat × α)) :
    alGet k (p :: t) = if p.1 = k then some p.2 else alGet k t := rfl

theorem alInsert_cons_lt {α : Type} {k : Nat} (v : α) {p : Nat × α}
    (t : List (Nat × α)) (h : k < p.1) :
    alInsert k v (p :: t) = (k, v) :: p :: t := by
  simp [alInsert, h]

theorem alInsert_cons_eq {α : Type} {k : Nat} (v : α) {p : Nat × α}
    (t : List (Nat × α)) (h : k = p.1) :
    alInsert k v (p :: t) = (k, v) :: t := by
  simp [alInsert, h]

theorem alInsert_cons_gt {α : Type} {k : Nat} (v : α) {p : Nat × α}
    (t : List (Nat × α)) (h : p.1 < k) :
    alInsert k v (p :: t) = p :: alInsert k v t := by
  have h1 : ¬ k < p.1 := by omega
  have h2 : ¬ k = p.1 := by omega
  simp [alInsert, h1, h2]

theorem alGet_alInsert_self {α : Type} (k : Nat) (v : α) (l : List (Nat × α)) :
    alGet k (alInsert k v l) = some v := by
  induction l with
  | nil => simp [alInsert, alGet]
  | cons p t ih =>
    rcases Nat.lt_trichotomy k p.1 with h | h | h
    · rw [alInsert_cons_lt v t h, alGet_cons]
      simp
    · rw [alInsert_cons_eq v t h, alGet_cons]
      simp
    · rw [alInsert_cons_gt v t h, alGet_cons, if_neg (by omega), ih]

theorem alGet_alInsert_ne {α : Type} {k k' : Nat} (v : α) (l : List (Nat × α))
    (h : k' ≠ k) : alGet k' (alInsert k v l) = alGet k' l := by
  induction l with
  | nil => simp [alInsert, alGet, Ne.symm h]
  | cons p t ih =>
    rcases Nat.lt_trichotomy k p.1 with h1 | h1 | h1
    · rw [alInsert_cons_lt v t h1, alGet_cons, if_neg (by omega)]
    · rw [alInsert_cons_eq v t h1, alGet_cons (t := t), alGet_cons,
        if_neg (by omega), if_neg (by omega)]
    · rw [alInsert_cons_gt v t h1, alGet_cons, alGet_cons (t := t), ih]

theorem alGet_mem {α : Type} {k : Nat} {v : α} {l : List (Nat × α)}
    (h : alGet k l = some v) : (k, v) ∈ l := by
  induction l with
  | nil => simp [alGet] at h
  | cons p t ih =>
    rw [alGet_cons] at h
    by_cases h1 : p.1 = k
    · rw [if_pos h1] at h
      have : p = (k, v) := by
        cases p
        simp at h1 h
        simp [h1, h]
      rw [this]
      exact List.mem_cons_self _ _
    · rw [if_neg h1] at h
      exact List.mem_cons_of_mem _ (ih h)

theorem mem_alKeys_of_mem {α : Type} {k : Nat} {v : α} {l : List (Nat × α)}
    (hm : (k, v) ∈ l) : k ∈ alKeys l :=
  List.mem_map_of_mem Prod.fst hm

theorem mem_alGet {α : Type} {k : Nat} {v : α} {l : List (Nat × α)}
    (hs : alSorted l) (hm : (k, v) ∈ l) : alGet k l = some v := by
  induction l with
  | nil => simp at hm
  | cons p t ih =>
    rcases List.mem_cons.mp hm with hm' | hm'
    · rw [← hm', alGet_cons]
      simp
    · have hk : k ∈ alKeys t := mem_alKeys_of_mem hm'
      have hne : p.1 ≠ k := by
        intro he
        have := (List.pairwise_cons.mp hs).1 k hk
        omega
      rw [alGet_cons, if_neg hne]
      exact ih (List.pairwise_cons.mp hs).2 hm'

theorem alGet_eq_none {α : Type} {k : Nat} {l : List (Nat × α)}
    (h : k ∉ alKeys l) : alGet k l = none := by
  induction l with
  | nil => simp [alGet]
  | cons p t ih =>
    simp at h
    rw [alGet_cons, if_neg (fun he => h.1 he.symm)]
    exact ih h.2

theorem alKeys_alInsert {α : Type} (k : Nat) (v : α) (l : List (Nat × α)) :
    ∀ x, x ∈ alKeys (alInsert k v l) → x = k ∨ x ∈ alKeys l := by
  induction l with
  | nil => intro x; simp [alInsert, alKeys]
  | cons p t ih =>
    intro x hx
    rcases Nat.lt_trichotomy k p.1 with h1 | h1 | h1
    · rw [alInsert_cons_lt v t h1] at hx
      simp at hx ⊢
      tauto
    · rw [alInsert_cons_eq v t h1] at hx
      simp at hx ⊢
      tauto
    · rw [alInsert_cons_gt v t h1] at hx
      simp at hx ⊢
      rcases hx with hx | hx
      · tauto
      · rcases ih x hx with h | h
        · tauto
        · tauto

theorem alSorted_alInsert {α : Type} (k : Nat) (v : α) {l : List (Nat × α)}
    (hs : alSorted l) : alSorted (alInsert k v l) := by
  induction l with
  | nil => simp [alInsert, alSorted, alKeys]
  | cons p t ih =>
    have hs' := List.pairwise_cons.mp hs
    rcases Nat.lt_trichotomy k p.1 with h1 | h1 | h1
    · rw [alInsert_cons_lt v t h1]
      refine List.pairwise_cons.mpr ⟨?_, hs⟩
      intro x hx
      rw [List.map_cons] at hx
      rcases List.mem_cons.mp hx with hx | hx
      · omega
      · have := hs'.1 x hx
        omega
    · rw [alInsert_cons_eq v t h1]
      refine List.pairwise_cons.mpr ⟨?_, hs'.2⟩
      intro x hx
      have := hs'.1 x hx
      omega
    · rw [alInsert_cons_gt v t h1]
      refine List.pairwise_cons.mpr ⟨?_, ih hs'.2⟩
      intro x hx
      rcases alKeys_alInsert k v t x hx with hx' | hx'
      · omega
      · exact hs'.1 x hx'

theorem alSorted_filter {α : Type} (p : Nat × α → Bool) {l : List (Nat × α)}
    (hs : alSorted l) : alSorted (l.filter p) := by
  unfold alSorted alKeys at *
  exact (hs.sublist ((l.filter_sublist).map Prod.fst))

theorem alGet_alRemove_ne {α : Type} {k k' : Nat} (l : List (Nat × α))
    (h : k' ≠ k) : alGet k' (alRemove k l) = alGet k' l := by
  induction l with
  | nil => rfl
  | cons p t ih =>
    by_cases h1 : p.1 = k
    · have hremove : alRemove k (p :: t) = alRemove k t := by
        simp [alRemove, List.filter_cons, h1]
      rw [hremove, ih, alGet_cons, if_neg (by omega : ¬ p.1 = k')]
    · have hremove : alRemove k (p :: t) = p :: alRemove k t := by
        simp [alRemove, List.filter_cons, h1]
      rw [hremove, alGet_cons, alGet_cons (t := t), ih]

theorem alSorted_alRemove {α : Type} (k : Nat) {l : List (Nat × α)}
    (hs : alSorted l) : alSorted (alRemove k l) :=
  alSorted_filter _ hs

theorem alKeys_pairwise_ne {α : Type} {l : List (Nat × α)} (hs : alSorted l) :
    (alKeys l).Pairwise (· ≠ ·) :=
  hs.imp (fun h => Nat.ne_of_lt h)

theorem ovGe_iff {a b : OrdinaryVersion} :
    ovGe a b = true ↔
      ∀ p ∈ b, p.2 ≠ 0 → ∃ n, alGet p.1 a = some n ∧ p.2 ≤ n := by
  unfold ovGe
  rw [List.all_eq_true]
  constructor
  · intro h p hp hne
    have := h p hp
    simp [hne] at this
    rcases hg : alGet p.1 a with _ | n
    · rw [hg] at this; simp at this
    · rw [hg] at this
      simp at this
      exact ⟨n, rfl, this⟩
  · intro h p hp
    by_cases hz : p.2 = 0
    · simp [hz]
    · rcases h p hp hz with ⟨n, hn, hle⟩
      simp [hn, hle]

theorem ovGe_refl {a : OrdinaryVersion} (hs : ovSorted a) : ovGe a a = true := by
  rw [ovGe_iff]
  intro p hp _
  exact ⟨p.2, mem_alGet hs (by cases p; exact hp), le_refl _⟩

theorem ovGe_trans {a b c : OrdinaryVersion} (hab : ovGe a b = true)
    (hbc : ovGe b c = true) : ovGe a c = true := by
  rw [ovGe_iff] at *
  intro p hp hne
  rcases hbc p hp hne with ⟨n, hn, hle⟩
  have hnne : n ≠ 0 := by omega
  rcases hab (p.1, n) (alGet_mem hn) hnne with ⟨m, hm, hle'⟩
  exact ⟨m, hm, le_trans hle hle'⟩

@[simp] theorem merge_nil_left (w : OrdinaryVersion) :
    OrdinaryVersion.merge [] w = w := by
  rw [OrdinaryVersion.merge.eq_def]
  cases w <;> rfl

@[simp] theorem merge_nil_right (v : OrdinaryVersion) :
    OrdinaryVersion.merge v [] = v := by
  rw [OrdinaryVersion.merge.eq_def]
  cases v <;> rfl

theorem merge_cons_lt {i j : Nat} (n m : Nat) (v w : OrdinaryVersion)
    (h : i < j) :
    OrdinaryVersion.merge ((i, n) :: v) ((j, m) :: w) =
      (i, n) :: OrdinaryVersion.merge v ((j, m) :: w) := by
  rw [OrdinaryVersion.merge.eq_def]
  simp [h]

theorem merge_cons_gt {i j : Nat} (n m : Nat) (v w : OrdinaryVersion)
    (h : j < i) :
    OrdinaryVersion.merge ((i, n) :: v) ((j, m) :: w) =
      (j, m) :: OrdinaryVersion.merge ((i, n) :: v) w := by
  have h1 : ¬ i < j := by omega
  rw [OrdinaryVersion.merge.eq_def]
  simp [h, h1]

theorem merge_cons_eq {i j : Nat} (n m : Nat) (v w : OrdinaryVersion)
    (h : i = j) :
    OrdinaryVersion.merge ((i, n) :: v) ((j, m) :: w) =
      (i, max n m) :: OrdinaryVersion.merge v w := by
  have h1 : ¬ i < j := by omega
  have h2 : ¬ j < i := by omega
  rw [OrdinaryVersion.merge.eq_def]
  simp [h1, h2]

theorem mem_merge {a b : OrdinaryVersion} {p : Nat × Nat}
    (hp : p ∈ OrdinaryVersion.merge a b) :
    p.1 ∈ alKeys a ∨ p.1 ∈ alKeys b := by
  induction a, b using OrdinaryVersion.merge.induct with
  | case1 w =>
    rw [merge_nil_left] at hp
    right; exact mem_alKeys_of_mem (show (p.1, p.2) ∈ w by simpa using hp)
  | case2 v h =>
    rw [merge_nil_right] at hp
    left; exact mem_alKeys_of_mem (show (p.1, p.2) ∈ v by simpa using hp)
  | case3 i n v j m w h ih =>
    rw [merge_cons_lt n m v w h] at hp
    rcases List.mem_cons.mp hp with hp' | hp'
    · left; rw [hp']; simp
    · rcases ih hp' with h' | h'
      · left; simpa using Or.inr h'
      · right; exact h'
  | case4 i n v j m w h1 h2 ih =>
    rw [merge_cons_gt n m v w h2] at hp
    rcases List.mem_cons.mp hp with hp' | hp'
    · right; rw [hp']; simp
    · rcases ih hp' with h' | h'
      · left; exact h'
      · right; simpa using Or.inr h'
  | case5 i n v j m w h1 h2 ih =>
    rw [merge_cons_eq n m v w (by omega)] at hp
    rcases List.mem_cons.mp hp with hp' | hp'
    · left; rw [hp']; simp
    · rcases ih hp' with h' | h'
      · left; simpa using Or.inr h'
      · right; simpa using Or.inr h'

theorem mem_alKeys_merge {a b : OrdinaryVersion} {x : Nat}
    (hx : x ∈ alKeys (OrdinaryVersion.merge a b)) :
    x ∈ alKeys a ∨ x ∈ alKeys b := by
  rcases List.mem_map.mp hx with ⟨p, hp, hpx⟩
  rw [← hpx]
  exact mem_merge hp

theorem alGet_none_of_lt {α : Type} {k : Nat} {q : Nat × α} {t : List (Nat × α)}
    (hs : alSorted (q :: t)) (h : k < q.1) : alGet k (q :: t) = none := by
  refine alGet_eq_none ?_
  intro hk
  rcases List.mem_cons.mp (by simpa using hk) with h' | h'
  · omega
  · have := (List.pairwise_cons.mp hs).1 k h'
    omega

theorem alGet_merge {a b : OrdinaryVersion} (k : Nat) (ha : alSorted a)
    (hb : alSorted b) :
    alGet k (OrdinaryVersion.merge a b) = combineMax (alGet k a) (alGet k b) := by
  induction a, b using OrdinaryVersion.merge.induct with
  | case1 w =>
    rw [merge_nil_left]
    cases hg : alGet k w <;> simp [alGet, combineMax, hg]
  | case2 v h =>
    rw [merge_nil_right]
    cases hg : alGet k v <;> simp [alGet, combineMax, hg]
  | case3 i n v j m w h ih =>
    rw [merge_cons_lt n m v w h]
    by_cases hk : i = k
    · subst hk
      have hbnone : alGet i ((j, m) :: w) = none := alGet_none_of_lt hb h
      rw [alGet_cons, if_pos rfl, alGet_cons, if_pos rfl, hbnone]
      rfl
    · rw [alGet_cons, if_neg hk, alGet_cons (p := (i, n)), if_neg hk]
      exact ih (List.pairwise_cons.mp ha).2 hb
  | case4 i n v j m w h1 h2 ih =>
    rw [merge_cons_gt n m v w h2]
    by_cases hk : j = k
    · subst hk
      have hanone : alGet j ((i, n) :: v) = none := alGet_none_of_lt ha h2
      rw [alGet_cons, if_pos rfl, alGet_cons (p := (j, m)), if_pos rfl, hanone]
      rfl
    · rw [alGet_cons, if_neg hk, alGet_cons (p := (j, m)), if_neg hk]
      exact ih ha (List.pairwise_cons.mp hb).2
  | case5 i n v j m w h1 h2 ih =>
    have hij : i = j := by omega
    subst hij
    rw [merge_cons_eq n m v w rfl]
    by_cases hk : i = k
    · subst hk
      rw [alGet_cons, if_pos rfl, alGet_cons, if_pos rfl,
        alGet_cons (p := (i, m)), if_pos rfl]
      rfl
    · rw [alGet_cons, if_neg hk, alGet_cons (p := (i, n)), if_neg hk,
        alGet_cons (p := (i, m)), if_neg hk]
      exact ih (List.pairwise_cons.mp ha).2 (List.pairwise_cons.mp hb).2

theorem alSorted_merge {a b : OrdinaryVersion} (ha : alSorted a)
    (hb : alSorted b) : alSorted (OrdinaryVersion.merge a b) := by
  induction a, b using OrdinaryVersion.merge.induct with
  | case1 w => rw [merge_nil_left]; exact hb
  | case2 v h => rw [merge_nil_right]; exact ha
  | case3 i n v j m w h ih =>
    rw [merge_cons_lt n m v w h]
    have ha' := List.pairwise_cons.mp ha
    refine List.pairwise_cons.mpr ⟨?_, ih ha'.2 hb⟩
    intro x hx
    rcases mem_alKeys_merge hx with h' | h'
    · exact ha'.1 x h'
    · rw [alKeys_cons] at h'
      rcases List.mem_cons.mp h' with h'' | h''
      · simp at h''
        omega
      · have := (List.pairwise_cons.mp hb).1 x h''
        simp at this
        omega
  | case4 i n v j m w h1 h2 ih =>
    rw [merge_cons_gt n m v w h2]
    have hb' := List.pairwise_cons.mp hb
    refine List.pairwise_cons.mpr ⟨?_, ih ha hb'.2⟩
    intro x hx
    rcases mem_alKeys_merge hx with h' | h'
    · rw [alKeys_cons] at h'
      rcases List.mem_cons.mp h' with h'' | h''
      · simp at h''
        omega
      · have := (List.pairwise_cons.mp ha).1 x h''
        simp at this
        omega
    · exact hb'.1 x h'
  | case5 i n v j m w h1 h2 ih =>
    have hij : i = j := by omega
    subst hij
    rw [merge_cons_eq n m v w rfl]
    have ha' := List.pairwise_cons.mp ha
    have hb' := List.pairwise_cons.mp hb
    refine List.pairwise_cons.mpr ⟨?_, ih ha'.2 hb'.2⟩
    intro x hx
    rcases mem_alKeys_merge hx with h' | h'
    · exact ha'.1 x h'
    · exact hb'.1 x h'

theorem ovGe_merge_left {a b : OrdinaryVersion} (ha : alSorted a)
    (hb : alSorted b) : ovGe (OrdinaryVersion.merge a b) a = true := by
  rw [ovGe_iff]
  intro p hp _
  have hget : alGet p.1 a = some p.2 := mem_alGet ha (by cases p; exact hp)
  rw [alGet_merge p.1 ha hb, hget]
  cases hgb : alGet p.1 b with
  | none => exact ⟨p.2, rfl, le_refl _⟩
  | some m => exact ⟨max p.2 m, rfl, le_max_left _ _⟩

theorem ovGe_merge_right {a b : OrdinaryVersion} (ha : alSorted a)
    (hb : alSorted b) : ovGe (OrdinaryVersion.merge a b) b = true := by
  rw [ovGe_iff]
  intro p hp _
  have hget : alGet p.1 b = some p.2 := mem_alGet hb (by cases p; exact hp)
  rw [alGet_merge p.1 ha hb, hget]
  cases hga : alGet p.1 a with
  | none => exact ⟨p.2, rfl, le_refl _⟩
  | some n => exact ⟨max n p.2, rfl, le_max_right _ _⟩

theorem merge_comm (a b : OrdinaryVersion) :
    OrdinaryVersion.merge a b = OrdinaryVersion.merge b a := by
  induction a, b using OrdinaryVersion.merge.induct with
  | case1 w => rw [merge_nil_left, merge_nil_right]
  | case2 v h => rw [merge_nil_left, merge_nil_right]
  | case3 i n v j m w h ih =>
    rw [merge_cons_lt n m v w h, merge_cons_gt m n w v h, ih]
  | case4 i n v j m w h1 h2 ih =>
    rw [merge_cons_gt n m v w h2, merge_cons_lt m n w v h2, ih]
  | case5 i n v j m w h1 h2 ih =>
    have hij : i = j := by omega
    subst hij
    rw [merge_cons_eq n m v w rfl, merge_cons_eq m n w v rfl, ih, Nat.max_comm]

theorem merge_idem (a : OrdinaryVersion) : OrdinaryVersion.merge a a = a := by
  induction a with
  | nil => rw [merge_nil_left]
  | cons p t ih =>
    cases p with
    | mk i n => rw [merge_cons_eq n n t t rfl, ih, Nat.max_self]

theorem ovSorted_foldl_merge {ds : List OrdinaryVersion}
    {acc : OrdinaryVersion} (hacc : alSorted acc)
    (hds : ∀ d ∈ ds, alSorted d) :
    alSorted (ds.foldl OrdinaryVersion.merge acc) := by
  induction ds generalizing acc with
  | nil => exact hacc
  | cons d ds ih =>
    rw [List.foldl_cons]
    exact ih (alSorted_merge hacc (hds d (by simp)))
      (fun d' hd' => hds d' (by simp [hd']))

theorem ovGe_foldl_acc {ds : List OrdinaryVersion} {acc : OrdinaryVersion}
    (hacc : alSorted acc) (hds : ∀ d ∈ ds, alSorted d) :
    ovGe (ds.foldl OrdinaryVersion.merge acc) acc = true := by
  induction ds generalizing acc with
  | nil => exact ovGe_refl hacc
  | cons d ds ih =>
    rw [List.foldl_cons]
    refine ovGe_trans (ih (alSorted_merge hacc (hds d (by simp)))
      (fun d' hd' => hds d' (by simp [hd']))) ?_
    exact ovGe_merge_left hacc (hds d (by simp))

theorem ovGe_foldl_mem {ds : List OrdinaryVersion} {acc d : OrdinaryVersion}
    (hacc : alSorted acc) (hds : ∀ d' ∈ ds, alSorted d') (hd : d ∈ ds) :
    ovGe (ds.foldl OrdinaryVersion.merge acc) d = true := by
  induction ds generalizing acc with
  | nil => simp at hd
  | cons d' ds ih =>
    rw [List.foldl_cons]
    rcases List.mem_cons.mp hd with h | h
    · subst h
      refine ovGe_trans (ovGe_foldl_acc (alSorted_merge hacc (hds d (by simp)))
        (fun x hx => hds x (by simp [hx]))) ?_
      exact ovGe_merge_right hacc (hds d (by simp))
    · exact ih (alSorted_merge hacc (hds d' (by simp)))
        (fun x hx => hds x (by simp [hx])) h

theorem ovBound_merge {B : Nat} {a b : OrdinaryVersion} (ha : ovBound B a)
    (hb : ovBound B b) : ovBound B (OrdinaryVersion.merge a b) := by
  induction a, b using OrdinaryVersion.merge.induct with
  | case1 w => rw [merge_nil_left]; exact hb
  | case2 v h => rw [merge_nil_right]; exact ha
  | case3 i n v j m w h ih =>
    rw [merge_cons_lt n m v w h]
    intro p hp
    rcases List.mem_cons.mp hp with h' | h'
    · rw [h']; exact ha (i, n) (by simp)
    · exact ih (fun q hq => ha q (by simp [hq])) hb p h'
  | case4 i n v j m w h1 h2 ih =>
    rw [merge_cons_gt n m v w h2]
    intro p hp
    rcases List.mem_cons.mp hp with h' | h'
    · rw [h']; exact hb (j, m) (by simp)
    · exact ih ha (fun q hq => hb q (by simp [hq])) p h'
  | case5 i n v j m w h1 h2 ih =>
    rw [merge_cons_eq n m v w (by omega)]
    intro p hp
    rcases List.mem_cons.mp hp with h' | h'
    · rw [h']
      have h3 := ha (i, n) (by simp)
      have h4 := hb (j, m) (by simp)
      simp at h3 h4 ⊢
      omega
    · exact ih (fun q hq => ha q (by simp [hq]))
        (fun q hq => hb q (by simp [hq])) p h'

theorem ovBound_foldl {B : Nat} {ds : List OrdinaryVersion}
    {acc : OrdinaryVersion} (hacc : ovBound B acc)
    (hds : ∀ d ∈ ds, ovBound B d) :
    ovBound B (ds.foldl OrdinaryVersion.merge acc) := by
  induction ds generalizing acc with
  | nil => exact hacc
  | cons d ds ih =>
    rw [List.foldl_cons]
    exact ih (ovBound_merge hacc (hds d (by simp)))
      (fun d' hd' => hds d' (by simp [hd']))

theorem ovBound_alGet {B : Nat} {v : OrdinaryVersion} {k n : Nat}
    (hb : ovBound B v) (h : alGet k v = some n) : n ≤ B :=
  hb (k, n) (alGet_mem h)

theorem partialCmp_of_ovGe {a b : OrdinaryVersion} (h : ovGe a b = true) :
    OrdinaryVersion.partialCmp a b = some Ordering.gt ∨
      OrdinaryVersion.partialCmp a b = some Ordering.eq := by
  unfold OrdinaryVersion.partialCmp
  rw [h]
  cases ovGe b a
  · left; rfl
  · right; rfl

theorem partialCmp_gt_of_ovGe {a b : OrdinaryVersion} (h1 : ovGe a b = true)
    (h2 : ovGe b a = false) :
    OrdinaryVersion.partialCmp a b = some Ordering.gt := by
  unfold OrdinaryVersion.partialCmp
  rw [h1, h2]

theorem alGet_foldl_merge {ds : List OrdinaryVersion} {acc : OrdinaryVersion}
    (k : Nat) (hacc : alSorted acc) (hds : ∀ d ∈ ds, alSorted d) :
    alGet k (ds.foldl OrdinaryVersion.merge acc) = mergedGet acc ds k := by
  induction ds generalizing acc with
  | nil => rfl
  | cons d ds ih =>
    rw [List.foldl_cons]
    have hd := hds d (by simp)
    rw [ih (alSorted_merge hacc hd) (fun d' hd' => hds d' (by simp [hd']))]
    unfold mergedGet
    rw [List.foldl_cons, alGet_merge k hacc hd]

/-! ## Claim C9: `dep_cmp` and absent entries -/

/-- C9 counterexample: `dep_cmp` does not read an absent entry as `0`.  A
version mapping `7` to `0` and a version with no entry for `7` compare as
`Greater` / `Less` at `7`, not as `Equal`, although the read-as-0 integer
comparison of the two entries is `Equal`. -/
theorem C9_counterexample :
    OrdinaryVersion.depCmp [(7, 0)] [] 7 = Ordering.gt ∧
    OrdinaryVersion.depCmp [] [(7, 0)] 7 = Ordering.lt ∧
    compare ((alGet 7 ([(7, 0)] : OrdinaryVersion)).getD 0)
      ((alGet 7 ([] : OrdinaryVersion)).getD 0) = Ordering.eq := by
  constructor
  · rfl
  constructor
  · rfl
  · rfl

/-- C9 (amended): `dep_cmp` first compares presence of the entry for `id`:
when both versions have an entry or both lack it, the result is the integer
comparison of the entries read as `0` when absent; when exactly one side has
an entry (even one with value `0`), that side compares as greater. -/
theorem C9_theorem (a b : OrdinaryVersion) (id : Nat) :
    ((alGet id a).isSome = (alGet id b).isSome →
      OrdinaryVersion.depCmp a b id =
        compare ((alGet id a).getD 0) ((alGet id b).getD 0)) ∧
    ((alGet id a).isSome = true → alGet id b = none →
      OrdinaryVersion.depCmp a b id = Ordering.gt) ∧
    (alGet id a = none → (alGet id b).isSome = true →
      OrdinaryVersion.depCmp a b id = Ordering.lt) := by
  refine ⟨?_, ?_, ?_⟩
  · intro h
    unfold OrdinaryVersion.depCmp
    cases ha : alGet id a with
    | none =>
      cases hb : alGet id b with
      | none => rfl
      | some m => rw [ha, hb] at h; simp at h
    | some n =>
      cases hb : alGet id b with
      | none => rw [ha, hb] at h; simp at h
      | some m => rfl
  · intro ha hb
    unfold OrdinaryVersion.depCmp
    cases hg : alGet id a with
    | none => rw [hg] at ha; simp at ha
    | some n => rw [hb]
  · intro ha hb
    unfold OrdinaryVersion.depCmp
    cases hg : alGet id b with
    | none => rw [hg] at hb; simp at hb
    | some n => rw [ha]

/-- C9 witness: the amended characterization at concrete inputs. -/
theorem C9_witness :
    OrdinaryVersion.depCmp [(3, 2)] [(3, 1)] 3 =
      compare ((alGet 3 ([(3, 2)] : OrdinaryVersion)).getD 0)
        ((alGet 3 ([(3, 1)] : OrdinaryVersion)).getD 0) ∧
    OrdinaryVersion.depCmp [(3, 0)] [] 3 = Ordering.gt := by
  constructor
  · exact (C9_theorem [(3, 2)] [(3, 1)] 3).1 (by decide)
  · exact (C9_theorem [(3, 0)] [] 3).2.1 (by decide) (by decide)

/-! ## Claim C8: `OrdinaryVersion` merge round-trip -/

/-- C8: `a.merge(b)` is `Greater` or `Equal` against both arguments under
`partial_cmp`; `merge` is commutative and idempotent. -/
theorem C8_theorem (a b : OrdinaryVersion) (ha : ovSorted a)
    (hb : ovSorted b) :
    (OrdinaryVersion.partialCmp (OrdinaryVersion.merge a b) a =
        some Ordering.gt ∨
      OrdinaryVersion.partialCmp (OrdinaryVersion.merge a b) a =
        some Ordering.eq) ∧
    (OrdinaryVersion.partialCmp (OrdinaryVersion.merge a b) b =
        some Ordering.gt ∨
      OrdinaryVersion.partialCmp (OrdinaryVersion.merge a b) b =
        some Ordering.eq) ∧
    OrdinaryVersion.merge a b = OrdinaryVersion.merge b a ∧
    OrdinaryVersion.merge a a = a := by
  refine ⟨?_, ?_, merge_comm a b, merge_idem a⟩
  · exact partialCmp_of_ovGe (ovGe_merge_left ha hb)
  · exact partialCmp_of_ovGe (ovGe_merge_right ha hb)

/-- C8 witness: the merge round-trip at concrete versions. -/
theorem C8_witness :
    (OrdinaryVersion.partialCmp
        (OrdinaryVersion.merge [(1, 2)] [(1, 1), (2, 5)]) [(1, 2)] =
          some Ordering.gt ∨
      OrdinaryVersion.partialCmp
        (OrdinaryVersion.merge [(1, 2)] [(1, 1), (2, 5)]) [(1, 2)] =
          some Ordering.eq) ∧
    OrdinaryVersion.merge [(1, 2)] [(1, 1), (2, 5)] =
      OrdinaryVersion.merge [(1, 1), (2, 5)] [(1, 2)] := by
  have h := C8_theorem [(1, 2)] [(1, 1), (2, 5)] (by decide) (by decide)
  exact ⟨h.1, h.2.2.1⟩

/-! ## Claim C4: version-service dominance -/

theorem ovGe_bump {m base : OrdinaryVersion} (id : Nat)
    (hge : ovGe m base = true) {val : Nat}
    (hval : val = (alGet id m).getD 0 + 1) :
    ovGe (alInsert id val m) base = true ∧
      ovGe base (alInsert id val m) = false := by
  constructor
  · rw [ovGe_iff]
    intro p hp hne
    rcases (ovGe_iff.mp hge) p hp hne with ⟨y, hy, hle⟩
    by_cases hk : p.1 = id
    · refine ⟨val, by rw [hk]; exact alGet_alInsert_self id val m, ?_⟩
      rw [hk] at hy
      rw [hval, hy]
      simp at hy ⊢
      omega
    · exact ⟨y, by rw [alGet_alInsert_ne val m hk, hy], hle⟩
  · rw [Bool.eq_false_iff]
    intro hcon
    have hmem : (id, val) ∈ alInsert id val m :=
      alGet_mem (alGet_alInsert_self id val m)
    have hvne : val ≠ 0 := by omega
    rcases (ovGe_iff.mp hcon) (id, val) hmem hvne with ⟨n, hn, hle⟩
    have hnx : n ≤ (alGet id m).getD 0 := by
      by_cases hz : n = 0
      · omega
      · rcases (ovGe_iff.mp hge) (id, n) (alGet_mem hn) hz with ⟨y, hy, hley⟩
        rw [hy]
        simpa using hley
    simp at hn hle
    omega

/-- C4 counterexample: the `+= 1` in `OrdinaryVersion::update` is `u32`
arithmetic, so with `prev = {5: u32::MAX}` and no deps the reply's entry for
`5` wraps to `0` and the reply compares as `Less` than `prev`, not
`Greater`. -/
theorem C4_counterexample :
    OrdinaryVersionService.reply 5 [(5, 4294967295)] [] = [(5, 0)] ∧
    OrdinaryVersion.partialCmp
      (OrdinaryVersionService.reply 5 [(5, 4294967295)] [])
      [(5, 4294967295)] = some Ordering.lt := by
  constructor
  · rfl
  · rfl

/-- C4 (amended): provided no entry of `prev` or of any dep reaches
`u32::MAX` (so the increment cannot wrap), the reply to
`Update { id, prev, deps }` carries `version_deps` equal, entry by entry, to
`prev` merged with every dep and with the entry for `id` incremented by one,
and this `version_deps` is strictly `Greater` than `prev` and than every
input dep under `partial_cmp`. -/
theorem C4_theorem (id : Nat) (prev : OrdinaryVersion)
    (deps : List OrdinaryVersion) (hp : ovSorted prev)
    (hd : ∀ d ∈ deps, ovSorted d) (hbp : ovBound (u32Mod - 2) prev)
    (hbd : ∀ d ∈ deps, ovBound (u32Mod - 2) d) :
    (∀ k, alGet k (OrdinaryVersionService.reply id prev deps) =
      if k = id then some ((mergedGet prev deps id).getD 0 + 1)
      else mergedGet prev deps k) ∧
    OrdinaryVersion.partialCmp (OrdinaryVersionService.reply id prev deps)
      prev = some Ordering.gt ∧
    ∀ d ∈ deps,
      OrdinaryVersion.partialCmp (OrdinaryVersionService.reply id prev deps)
        d = some Ordering.gt := by
  have hms : alSorted (deps.foldl OrdinaryVersion.merge prev) :=
    ovSorted_foldl_merge hp hd
  have hmb : ovBound (u32Mod - 2) (deps.foldl OrdinaryVersion.merge prev) :=
    ovBound_foldl hbp hbd
  have hxb : (alGet id (deps.foldl OrdinaryVersion.merge prev)).getD 0 ≤
      u32Mod - 2 := by
    cases hg : alGet id (deps.foldl OrdinaryVersion.merge prev) with
    | none => simp
    | some n => simpa using ovBound_alGet hmb hg
  have hu32 : u32Mod = 4294967296 := rfl
  have hwrap :
      ((alGet id (deps.foldl OrdinaryVersion.merge prev)).getD 0 + 1) %
        u32Mod =
      (alGet id (deps.foldl OrdinaryVersion.merge prev)).getD 0 + 1 :=
    Nat.mod_eq_of_lt (by omega)
  have hreply : OrdinaryVersionService.reply id prev deps =
      alInsert id
        ((alGet id (deps.foldl OrdinaryVersion.merge prev)).getD 0 + 1)
        (deps.foldl OrdinaryVersion.merge prev) := by
    simp only [OrdinaryVersionService.reply, OrdinaryVersion.update]
    rw [hwrap]
  refine ⟨?_, ?_, ?_⟩
  · intro k
    rw [hreply]
    by_cases hk : k = id
    · rw [if_pos hk, hk, alGet_alInsert_self,
        ← alGet_foldl_merge id hp hd]
    · rw [if_neg hk, alGet_alInsert_ne _ _ hk, alGet_foldl_merge k hp hd]
  · rw [hreply]
    have h := ovGe_bump id (ovGe_foldl_acc hp hd) rfl
    exact partialCmp_gt_of_ovGe h.1 h.2
  · intro d hmem
    rw [hreply]
    have h := ovGe_bump id (ovGe_foldl_mem hp hd hmem) rfl
    exact partialCmp_gt_of_ovGe h.1 h.2

/-- C4 witness: the amended dominance at concrete inputs. -/
theorem C4_witness :
    OrdinaryVersion.partialCmp
      (OrdinaryVersionService.reply 1 [(2, 3)] [[(3, 1)]]) [(2, 3)] =
        some Ordering.gt ∧
    OrdinaryVersion.partialCmp
      (OrdinaryVersionService.reply 1 [(2, 3)] [[(3, 1)]]) [(3, 1)] =
        some Ordering.gt := by
  have h := C4_theorem 1 [(2, 3)] [[(3, 1)]] (by decide) (by decide)
    (by decide) (by decide)
  exact ⟨h.2.1, h.2.2 [(3, 1)] (by simp)⟩

/-! ## Claim C2: PBFT client reply handling -/

/-- C2: a Reply with a stale seq or with no outstanding invoke changes
nothing; otherwise it is recorded under its replica id, and the client
upcalls exactly when the collected replies holding the incoming result
number `num_faulty + 1`, in which case it adopts the reply's view, cancels
the resend timer and clears the invoke; otherwise only the collected replies
change. -/
theorem C2_theorem (c : PbftClient) (r : Reply) :
    (r.seq ≠ c.seq → c.handleReply r = (c, [])) ∧
    (c.invoke = none → c.handleReply r = (c, [])) ∧
    (∀ inv, c.invoke = some inv → r.seq = c.seq →
      alGet r.replica_id (alInsert r.replica_id r inv.replies) = some r ∧
      (PbftClientOut.Upcall c.id r.result ∈ (c.handleReply r).2 ↔
        ((alInsert r.replica_id r inv.replies).filter
          fun p => p.2.result = r.result).length = c.num_faulty + 1) ∧
      (((alInsert r.replica_id r inv.replies).filter
          fun p => p.2.result = r.result).length = c.num_faulty + 1 →
        c.handleReply r =
          ({ c with view_num := r.view_num, invoke := none },
            [PbftClientOut.CancelTimer inv.resend_timer,
              PbftClientOut.Upcall c.id r.result])) ∧
      (((alInsert r.replica_id r inv.replies).filter
          fun p => p.2.result = r.result).length ≠ c.num_faulty + 1 →
        c.handleReply r =
          ({ c with invoke := some { inv with replies := alInsert r.replica_id r inv.replies } }, []))) := by
  refine ⟨?_, ?_, ?_⟩
  · intro h
    unfold PbftClient.handleReply
    rw [if_pos h]
  · intro h
    unfold PbftClient.handleReply
    rw [h]
    split
    · rfl
    · rfl
  · intro inv hinv hseq
    have hne : ¬ r.seq ≠ c.seq := by omega
    refine ⟨alGet_alInsert_self _ _ _, ?_, ?_, ?_⟩
    · unfold PbftClient.handleReply
      rw [if_neg hne, hinv]
      by_cases hcnt : ((alInsert r.replica_id r inv.replies).filter
          fun p => p.2.result = r.result).length = c.num_faulty + 1
      · simp only [hcnt, if_pos]
        simp [hcnt]
      · simp only [if_neg hcnt]
        simp [hcnt]
    · intro hcnt
      unfold PbftClient.handleReply
      rw [if_neg hne, hinv]
      simp only [hcnt, if_pos]
    · intro hcnt
      unfold PbftClient.handleReply
      rw [if_neg hne, hinv]
      simp only [if_neg hcnt]

/-- C2 witness: one faulty replica, a second matching reply completes the
quorum and upcalls; a stale-seq reply is ignored. -/
theorem C2_witness :
    PbftClient.handleReply
      (PbftClient.mk 9 1 0 4 1
        (some (ClientInvoke.mk 5 3 [(0, Reply.mk 1 7 0 0)])))
      (Reply.mk 1 7 0 2) =
      (PbftClient.mk 9 1 0 4 1 none,
        [PbftClientOut.CancelTimer 3, PbftClientOut.Upcall 9 7]) ∧
    PbftClient.handleReply (PbftClient.mk 9 1 0 4 1 none) (Reply.mk 0 7 0 2) =
      (PbftClient.mk 9 1 0 4 1 none, []) := by
  constructor
  · exact ((C2_theorem
      (PbftClient.mk 9 1 0 4 1
        (some (ClientInvoke.mk 5 3 [(0, Reply.mk 1 7 0 0)])))
      (Reply.mk 1 7 0 2)).2.2
      (ClientInvoke.mk 5 3 [(0, Reply.mk 1 7 0 0)]) rfl rfl).2.2.1 (by decide)
  · exact (C2_theorem (PbftClient.mk 9 1 0 4 1 none) (Reply.mk 0 7 0 2)).1
      (by decide)

/-! ## Claim C10: stray COPS replies are fatal -/

/-- C10: a `PutOk` or `GetOk` delivered while no invocation is outstanding
makes the COPS client handler fail (`bail!("missing working key")`, embedded
as `none`), while the PBFT client silently ignores a stray Reply. -/
theorem C10_theorem (c : CopsClient) (v : OrdinaryVersion) (value : String)
    (pc : PbftClient) (r : Reply) (h : c.working_key = none)
    (hp : pc.invoke = none) :
    c.handlePutOk v = none ∧ c.handleGetOk value v = none ∧
    pc.handleReply r = (pc, []) := by
  refine ⟨?_, ?_, ?_⟩
  · unfold CopsClient.handlePutOk
    rw [h]
  · unfold CopsClient.handleGetOk
    rw [h]
  · unfold PbftClient.handleReply
    rw [hp]
    split
    · rfl
    · rfl

/-- C10 witness: the stray-reply behaviors at concrete client states. -/
theorem C10_witness :
    CopsClient.handlePutOk (CopsClient.mk [(1, [(1, 1)])] none) [(1, 2)] =
      none ∧
    PbftClient.handleReply (PbftClient.mk 9 1 0 4 1 none) (Reply.mk 1 7 0 2) =
      (PbftClient.mk 9 1 0 4 1 none, []) := by
  have h := C10_theorem (CopsClient.mk [(1, [(1, 1)])] none) [(1, 2)] ""
    (PbftClient.mk 9 1 0 4 1 none) (Reply.mk 1 7 0 2) rfl rfl
  exact ⟨h.1, h.2.2⟩

/-! ## Claim C5: protocol drops -/

/-- C5 counterexample: a COPS client with an outstanding put whose `PutOk`
fails the version check does NOT keep its state unchanged: the handler takes
`working_key` before the check, so the drop clears it (and the invoke timer
stays armed, uncancelled). -/
theorem C5_counterexample :
    CopsClient.handlePutOk (CopsClient.mk [(1, [(1, 1)])] (some (2, 7)))
        [(1, 1)] =
      some (CopsClient.mk [(1, [(1, 1)])] none, []) ∧
    CopsClient.mk [(1, [(1, 1)])] none ≠
      CopsClient.mk [(1, [(1, 1)])] (some (2, 7)) := by
  constructor
  · rfl
  · decide

/-- C5 (amended): a COPS replica drops a `Put` failing the dependency check
with its whole state unchanged and no message sent; a COPS client drops a
`PutOk` (resp. `GetOk`) failing its version check with `deps` unchanged, no
timer cancellation and no upcall, but with `working_key` cleared, since the
handler takes the working key before the check. -/
theorem C5_theorem (s : CopsReplica) (put : CopsPut) (c : CopsClient)
    (key timer_id : Nat) (v : OrdinaryVersion) (value : String) :
    (s.putDepsOk put.deps = false →
      copsStep s (CopsEvent.RecvPut put) = some (s, [])) ∧
    (c.working_key = some (key, timer_id) →
      (c.deps.all fun p => v.partialCmp p.2 = some Ordering.gt) = false →
      c.handlePutOk v = some ({ c with working_key := none }, [])) ∧
    (c.working_key = some (key, timer_id) →
      (c.deps.all fun p => ordIsGE (v.depCmp p.2 key)) = false →
      c.handleGetOk value v = some ({ c with working_key := none }, [])) := by
  refine ⟨?_, ?_, ?_⟩
  · intro h
    unfold copsStep CopsReplica.handlePut
    dsimp only
    rw [h]
    rfl
  · intro hw hc
    unfold CopsClient.handlePutOk
    rw [hw]
    dsimp only
    rw [hc]
    rfl
  · intro hw hc
    unfold CopsClient.handleGetOk
    rw [hw]
    dsimp only
    rw [hc]
    rfl

/-- C5 witness: the three drops at concrete inputs. -/
theorem C5_witness :
    copsStep (CopsReplica.mk [] [] [])
        (CopsEvent.RecvPut (CopsPut.mk 1 "v" [(2, [(2, 1)])] 5)) =
      some (CopsReplica.mk [] [] [], []) ∧
    CopsClient.handleGetOk (CopsClient.mk [(1, [(2, 1)])] (some (2, 7))) "v"
        [] =
      some (CopsClient.mk [(1, [(2, 1)])] none, []) := by
  have h := C5_theorem (CopsReplica.mk [] [] [])
    (CopsPut.mk 1 "v" [(2, [(2, 1)])] 5)
    (CopsClient.mk [(1, [(2, 1)])] (some (2, 7))) 2 7 [] "v"
  exact ⟨h.1 (by decide), h.2.2 rfl (by decide)⟩

/-! ## Claim C6: SyncKey buffering and the drain pass -/

theorem applySync_pending (s : CopsReplica) (k : SyncKey)
    (s' : CopsReplica) (h : s.applySync k = some s') :
    s'.pending_sync_keys = s.pending_sync_keys := by
  unfold CopsReplica.applySync at h
  split at h
  · split at h
    · exact absurd h (by simp)
    · split at h
      · cases h; rfl
      · cases h; rfl
  · cases h; rfl

theorem drainSync_pending_subset (l : List SyncKey) (s s' : CopsReplica)
    (h : CopsReplica.drainSync s l = some s') :
    ∀ x ∈ s'.pending_sync_keys, x ∈ s.pending_sync_keys ∨ x ∈ l := by
  induction l generalizing s with
  | nil =>
    unfold CopsReplica.drainSync at h
    cases h
    intro x hx
    exact Or.inl hx
  | cons k rest ih =>
    unfold CopsReplica.drainSync at h
    split at h
    · cases ha : CopsReplica.applySync s k with
      | none => rw [ha] at h; exact absurd h (by simp)
      | some s1 =>
        rw [ha] at h
        intro x hx
        rcases ih s1 h x hx with h' | h'
        · rw [applySync_pending s k s1 ha] at h'
          exact Or.inl h'
        · exact Or.inr (by simp [h'])
    · intro x hx
      rcases ih _ h x hx with h' | h'
      · rcases List.mem_append.mp h' with h'' | h''
        · exact Or.inl h''
        · exact Or.inr (by simp at h''; simp [h''])
      · exact Or.inr (by simp [h'])

/-- C6 counterexample: after a `SyncKey` is applied and the buffer drained,
a buffered `SyncKey` can still satisfy `can_sync` (the drain is one pass in
order, and an early buffered key is not re-checked after a later buffered
key is applied), contradicting "drained repeatedly until no further
progress". -/
theorem C6_counterexample :
    (copsStep
        (CopsReplica.mk [] []
          [SyncKey.mk 1 "a" [(1, 1), (2, 1)], SyncKey.mk 2 "b" [(2, 1), (3, 1)]])
        (CopsEvent.RecvSyncKey (SyncKey.mk 3 "c" [(3, 1)]))).map
      (fun r => (r.1.pending_sync_keys,
        r.1.canSync (SyncKey.mk 1 "a" [(1, 1), (2, 1)]), r.2)) =
      some ([SyncKey.mk 1 "a" [(1, 1), (2, 1)]], true, []) := by
  rfl

/-- C6 (amended): an unsyncable `SyncKey` is buffered with no other state
change; an applied one triggers a single in-order pass over the taken
buffer (each key re-checked once against the evolving state, applied if now
syncable, re-buffered otherwise, so afterwards a buffered key may again be
syncable); `apply_sync` fails when the target key has in-flight local puts,
and otherwise overwrites value and version only when the incoming
version_deps compare `Greater`, else it is a no-op; the drain never adds a
key that was not already buffered or incoming. -/
theorem C6_theorem (s : CopsReplica) (k : SyncKey) :
    (s.canSync k = false →
      copsStep s (CopsEvent.RecvSyncKey k) =
        some ({ s with pending_sync_keys := s.pending_sync_keys ++ [k] },
          [])) ∧
    (∀ st, alGet k.key s.store = some st → st.pending_puts ≠ [] →
      s.applySync k = none) ∧
    (∀ st, alGet k.key s.store = some st → st.pending_puts = [] →
      k.version_deps.partialCmp st.version_deps ≠ some Ordering.gt →
      s.applySync k = some s) ∧
    (∀ st, alGet k.key s.store = some st → st.pending_puts = [] →
      k.version_deps.partialCmp st.version_deps = some Ordering.gt →
      s.applySync k = some { s with store := alInsert k.key (KeyState.mk k.value k.version_deps []) s.store }) ∧
    (∀ s' out, copsStep s (CopsEvent.RecvSyncKey k) = some (s', out) →
      ∀ x ∈ s'.pending_sync_keys, x ∈ s.pending_sync_keys ∨ x = k) := by
  refine ⟨?_, ?_, ?_, ?_, ?_⟩
  · intro h
    unfold copsStep CopsReplica.handleSyncKey
    dsimp only
    rw [h]
    rfl
  · intro st hst hpp
    unfold CopsReplica.applySync
    rw [hst]
    dsimp only
    rw [if_pos (by simpa [List.isEmpty_iff] using hpp)]
  · intro st hst hpp hcmp
    unfold CopsReplica.applySync
    rw [hst]
    dsimp only
    rw [if_neg (by simpa [List.isEmpty_iff] using hpp), if_neg hcmp]
  · intro st hst hpp hcmp
    unfold CopsReplica.applySync
    rw [hst]
    dsimp only
    rw [if_neg (by simpa [List.isEmpty_iff] using hpp), if_pos hcmp]
    cases st
    simp at hpp
    rw [hpp]
  · intro s' out h x hx
    unfold copsStep CopsReplica.handleSyncKey at h
    dsimp only at h
    split at h
    · cases h
      rcases List.mem_append.mp hx with h' | h'
      · exact Or.inl h'
      · exact Or.inr (by simpa using h')
    · cases ha : s.applySync k with
      | none => rw [ha] at h; exact absurd h (by simp)
      | some s1 =>
        rw [ha] at h
        dsimp only at h
        cases hd : CopsReplica.drainSync { s1 with pending_sync_keys := [] }
            s1.pending_sync_keys with
        | none => rw [hd] at h; exact absurd h (by simp)
        | some s2 =>
          rw [hd] at h
          cases h
          rcases drainSync_pending_subset _ _ _ hd x hx with h' | h'
          · simp at h'
          · rw [applySync_pending _ _ _ ha] at h'
            exact Or.inl h'

/-- C6 witness: buffering of an unsyncable key, the conflict failure, the
no-op case, and the overwrite case at concrete states. -/
theorem C6_witness :
    copsStep (CopsReplica.mk [] [] [])
        (CopsEvent.RecvSyncKey (SyncKey.mk 1 "a" [(1, 1), (2, 1)])) =
      some (CopsReplica.mk [] [] [SyncKey.mk 1 "a" [(1, 1), (2, 1)]], []) ∧
    CopsReplica.applySync
        (CopsReplica.mk [(1, KeyState.mk "x" [(1, 1)] [])] [] [])
        (SyncKey.mk 1 "y" [(1, 2)]) =
      some (CopsReplica.mk [(1, KeyState.mk "y" [(1, 2)] [])] [] []) ∧
    CopsReplica.applySync
        (CopsReplica.mk [(1, KeyState.mk "x" [(1, 1)] [])] [] [])
        (SyncKey.mk 1 "y" [(1, 1)]) =
      some (CopsReplica.mk [(1, KeyState.mk "x" [(1, 1)] [])] [] []) := by
  refine ⟨?_, ?_, ?_⟩
  · exact (C6_theorem (CopsReplica.mk [] [] [])
      (SyncKey.mk 1 "a" [(1, 1), (2, 1)])).1 (by decide)
  · exact (C6_theorem (CopsReplica.mk [(1, KeyState.mk "x" [(1, 1)] [])] [] [])
      (SyncKey.mk 1 "y" [(1, 2)])).2.2.2.1 (KeyState.mk "x" [(1, 1)] [])
      (by decide) rfl (by decide)
  · exact (C6_theorem (CopsReplica.mk [(1, KeyState.mk "x" [(1, 1)] [])] [] [])
      (SyncKey.mk 1 "y" [(1, 1)])).2.2.1 (KeyState.mk "x" [(1, 1)] [])
      (by decide) rfl (by decide)

theorem ovGe_of_partialCmp_gt {a b : OrdinaryVersion}
    (h : OrdinaryVersion.partialCmp a b = some Ordering.gt) :
    ovGe a b = true := by
  by_cases hab : ovGe a b = true
  · exact hab
  · exfalso
    unfold OrdinaryVersion.partialCmp at h
    rw [Bool.not_eq_true] at hab
    rw [hab] at h
    cases hba : ovGe b a <;> rw [hba] at h <;> simp at h

theorem storeGeMono_of_store_eq {s s' : CopsReplica}
    (hwf : CopsStoreWF s) (heq : s'.store = s.store) : storeGeMono s s' := by
  intro k st hst
  exact ⟨st, by rw [heq]; exact hst, ovGe_refl (hwf k st hst)⟩

theorem storeGeMono_trans {s1 s2 s3 : CopsReplica}
    (h12 : storeGeMono s1 s2) (h23 : storeGeMono s2 s3) :
    storeGeMono s1 s3 := by
  intro k st hst
  rcases h12 k st hst with ⟨st2, hst2, hge2⟩
  rcases h23 k st2 hst2 with ⟨st3, hst3, hge3⟩
  exact ⟨st3, hst3, ovGe_trans hge3 hge2⟩

theorem applySync_mono {s : CopsReplica} {k0 : SyncKey} {s' : CopsReplica}
    (hwf : CopsStoreWF s) (h : s.applySync k0 = some s') :
    storeGeMono s s' := by
  intro k st hst
  unfold CopsReplica.applySync at h
  cases hg : alGet k0.key s.store with
  | some st0 =>
    rw [hg] at h
    dsimp only at h
    by_cases hemp : st0.pending_puts.isEmpty = true
    · rw [if_neg (not_not_intro hemp)] at h
      by_cases hgt : k0.version_deps.partialCmp st0.version_deps =
          some Ordering.gt
      · rw [if_pos hgt] at h
        cases h
        by_cases hk : k = k0.key
        · subst hk
          have hstq : st = st0 := by
            rw [hst] at hg
            exact (Option.some.injEq _ _).mp hg
          subst hstq
          refine ⟨_, by dsimp only; rw [alGet_alInsert_self], ?_⟩
          exact ovGe_of_partialCmp_gt hgt
        · exact ⟨st, by dsimp only; rw [alGet_alInsert_ne _ _ hk]; exact hst,
            ovGe_refl (hwf k st hst)⟩
      · rw [if_neg hgt] at h
        cases h
        exact ⟨st, hst, ovGe_refl (hwf k st hst)⟩
    · rw [if_pos hemp] at h
      exact absurd h (by simp)
  | none =>
    rw [hg] at h
    dsimp only at h
    cases h
    by_cases hk : k = k0.key
    · rw [hk, hg] at hst
      exact absurd hst (by simp)
    · exact ⟨st, by dsimp only; rw [alGet_alInsert_ne _ _ hk]; exact hst,
        ovGe_refl (hwf k st hst)⟩

theorem applySync_wf {s : CopsReplica} {k0 : SyncKey} {s' : CopsReplica}
    (hwf : CopsStoreWF s) (hk0 : ovSorted k0.version_deps)
    (h : s.applySync k0 = some s') : CopsStoreWF s' := by
  intro k st hst
  unfold CopsReplica.applySync at h
  cases hg : alGet k0.key s.store with
  | some st0 =>
    rw [hg] at h
    dsimp only at h
    by_cases hemp : st0.pending_puts.isEmpty = true
    · rw [if_neg (not_not_intro hemp)] at h
      by_cases hgt : k0.version_deps.partialCmp st0.version_deps =
          some Ordering.gt
      · rw [if_pos hgt] at h
        cases h
        by_cases hk : k = k0.key
        · subst hk
          dsimp only at hst
          rw [alGet_alInsert_self] at hst
          cases hst
          exact hk0
        · dsimp only at hst
          rw [alGet_alInsert_ne _ _ hk] at hst
          exact hwf k st hst
      · rw [if_neg hgt] at h
        cases h
        exact hwf k st hst
    · rw [if_pos hemp] at h
      exact absurd h (by simp)
  | none =>
    rw [hg] at h
    dsimp only at h
    cases h
    by_cases hk : k = k0.key
    · subst hk
      dsimp only at hst
      rw [alGet_alInsert_self] at hst
      cases hst
      exact hk0
    · dsimp only at hst
      rw [alGet_alInsert_ne _ _ hk] at hst
      exact hwf k st hst

theorem drainSync_mono {l : List SyncKey} {s s' : CopsReplica}
    (hwf : CopsStoreWF s) (hl : ∀ x ∈ l, ovSorted x.version_deps)
    (h : CopsReplica.drainSync s l = some s') :
    storeGeMono s s' ∧ CopsStoreWF s' := by
  induction l generalizing s with
  | nil =>
    unfold CopsReplica.drainSync at h
    cases h
    exact ⟨storeGeMono_of_store_eq hwf rfl, hwf⟩
  | cons k rest ih =>
    unfold CopsReplica.drainSync at h
    split at h
    · cases ha : CopsReplica.applySync s k with
      | none => rw [ha] at h; exact absurd h (by simp)
      | some s1 =>
        rw [ha] at h
        have hwf1 : CopsStoreWF s1 :=
          applySync_wf hwf (hl k (by simp)) ha
        rcases ih hwf1 (fun x hx => hl x (by simp [hx])) h with ⟨hm, hw⟩
        exact ⟨storeGeMono_trans (applySync_mono hwf ha) hm, hw⟩
    · have hwf1 : CopsStoreWF
          { s with pending_sync_keys := s.pending_sync_keys ++ [k] } := by
        intro k' st' hst'
        exact hwf k' st' hst'
      rcases ih hwf1 (fun x hx => hl x (by simp [hx])) h with ⟨hm, hw⟩
      exact ⟨storeGeMono_trans (storeGeMono_of_store_eq hwf rfl) hm, hw⟩

/-- C3: under well-formed state and message versions, any COPS replica
event that does not fail leaves every stored key's `version_deps` either
strictly greater or equal under `partial_cmp` — never smaller, never
incomparable. -/
theorem C3_theorem (s : CopsReplica) (e : CopsEvent) (s' : CopsReplica)
    (out : List CopsOut) (hstore : CopsStoreWF s) (hpend : CopsPendingWF s)
    (hewf : CopsEventWF e) (h : copsStep s e = some (s', out)) (k : Nat)
    (st : KeyState) (hk : alGet k s.store = some st) :
    ∃ st', alGet k s'.store = some st' ∧
      (st'.version_deps.partialCmp st.version_deps = some Ordering.gt ∨
        st'.version_deps.partialCmp st.version_deps = some Ordering.eq) := by
  have conv : storeGeMono s s' →
      ∃ st', alGet k s'.store = some st' ∧
        (st'.version_deps.partialCmp st.version_deps = some Ordering.gt ∨
          st'.version_deps.partialCmp st.version_deps = some Ordering.eq) := by
    intro hm
    rcases hm k st hk with ⟨st', hst', hge⟩
    exact ⟨st', hst', partialCmp_of_ovGe hge⟩
  cases e with
  | RecvGet g =>
    unfold copsStep CopsReplica.handleGet at h
    dsimp only at h
    split at h
    · exact absurd h (by simp)
    · cases h
      exact conv (storeGeMono_of_store_eq hstore rfl)
  | RecvPut p =>
    unfold copsStep CopsReplica.handlePut at h
    dsimp only at h
    split at h
    · cases h
      exact conv (storeGeMono_of_store_eq hstore rfl)
    · refine conv ?_
      intro k' st' hst'
      have hbody : s'.store = alInsert p.key
          { (alGet p.key s.store).getD
              { value := "", version_deps := s.version_zero,
                pending_puts := [] } with
            pending_puts :=
              ((alGet p.key s.store).getD
                { value := "", version_deps := s.version_zero,
                  pending_puts := [] }).pending_puts ++ [p] } s.store := by
        split at h
        · cases h; rfl
        · cases h; rfl
      by_cases hkp : k' = p.key
      · subst hkp
        rw [hbody, alGet_alInsert_self]
        refine ⟨_, rfl, ?_⟩
        rw [hst']
        exact ovGe_refl (hstore p.key st' hst')
      · rw [hbody, alGet_alInsert_ne _ _ hkp]
        exact ⟨st', hst', ovGe_refl (hstore k' st' hst')⟩
  | RecvSyncKey k0 =>
    unfold copsStep CopsReplica.handleSyncKey at h
    dsimp only at h
    split at h
    · cases h
      exact conv (storeGeMono_of_store_eq hstore rfl)
    · cases ha : s.applySync k0 with
      | none => rw [ha] at h; exact absurd h (by simp)
      | some s1 =>
        rw [ha] at h
        dsimp only at h
        cases hd : CopsReplica.drainSync { s1 with pending_sync_keys := [] }
            s1.pending_sync_keys with
        | none => rw [hd] at h; exact absurd h (by simp)
        | some s2 =>
          rw [hd] at h
          cases h
          have hwf1 : CopsStoreWF s1 := applySync_wf hstore hewf ha
          have hwf1' : CopsStoreWF { s1 with pending_sync_keys := [] } :=
            fun k' st' hst' => hwf1 k' st' hst'
          have hpend1 : ∀ x ∈ s1.pending_sync_keys,
              ovSorted x.version_deps := by
            intro x hx
            rw [applySync_pending _ _ _ ha] at hx
            exact hpend x hx
          rcases drainSync_mono hwf1' hpend1 hd with ⟨hm2, _⟩
          refine conv (storeGeMono_trans (applySync_mono hstore ha)
            (storeGeMono_trans ?_ hm2))
          exact storeGeMono_of_store_eq hwf1 rfl
  | UpdateOk id v =>
    unfold copsStep CopsReplica.handleUpdateOk at h
    dsimp only at h
    cases hg : alGet id s.store with
    | none => rw [hg] at h; exact absurd h (by simp)
    | some st0 =>
      rw [hg] at h
      dsimp only at h
      cases hpp : st0.pending_puts with
      | nil => rw [hpp] at h; exact absurd h (by simp)
      | cons put rest =>
        rw [hpp] at h
        dsimp only at h
        split at h
        · exact absurd h (by simp)
        · rename_i hd1
          split at h
          · exact absurd h (by simp)
          · rename_i hd2
            cases h
            by_cases hkid : k = id
            · subst hkid
              have hstq : st = st0 := by
                rw [hk] at hg
                exact (Option.some.injEq _ _).mp hg
              subst hstq
              refine ⟨_, by dsimp only; rw [alGet_alInsert_self], ?_⟩
              left
              dsimp only
              exact of_not_not hd2
            · refine ⟨st, ?_, ?_⟩
              · dsimp only
                rw [alGet_alInsert_ne _ _ hkid]
                exact hk
              · exact partialCmp_of_ovGe (ovGe_refl (hstore k st hk))

/-- C3 witness: applying a strictly newer `SyncKey` to a stored key yields a
`Greater` comparison against the old stored version. -/
theorem C3_witness :
    ∃ st', alGet 1
        (CopsReplica.mk [(1, KeyState.mk "y" [(1, 2)] [])] [] []).store =
        some st' ∧
      (st'.version_deps.partialCmp
          (KeyState.mk "x" [(1, 1)] []).version_deps = some Ordering.gt ∨
        st'.version_deps.partialCmp
          (KeyState.mk "x" [(1, 1)] []).version_deps = some Ordering.eq) := by
  exact C3_theorem (CopsReplica.mk [(1, KeyState.mk "x" [(1, 1)] [])] [] [])
    (CopsEvent.RecvSyncKey (SyncKey.mk 1 "y" [(1, 2)]))
    (CopsReplica.mk [(1, KeyState.mk "y" [(1, 2)] [])] [] []) []
    (by
      intro k st hst
      rw [alGet_cons] at hst
      by_cases h1 : (1 : Nat) = k
      · rw [if_pos h1] at hst
        cases hst
        decide
      · rw [if_neg h1] at hst
        simp [alGet] at hst)
    (by intro x hx; simp at hx)
    (show ovSorted [(1, 2)] by decide)
    (by rfl)
    1 (KeyState.mk "x" [(1, 1)] []) (by rfl)

theorem repliesMono_of_eq {s s' : PbftReplica}
    (h : s'.replies = s.replies) : repliesMono s s' := by
  intro cid p hp
  exact ⟨p, by rw [h]; exact hp, le_refl _⟩

theorem repliesMono_trans {s1 s2 s3 : PbftReplica}
    (h12 : repliesMono s1 s2) (h23 : repliesMono s2 s3) :
    repliesMono s1 s3 := by
  intro cid p hp
  rcases h12 cid p hp with ⟨p2, hp2, hle2⟩
  rcases h23 cid p2 hp2 with ⟨p3, hp3, hle3⟩
  exact ⟨p3, hp3, le_trans hle2 hle3⟩

theorem submitPrepare_fields {s : PbftReplica} {p : Prepare}
    {s1 : PbftReplica} {b : Bool} (h : s.submitPrepare p = some (s1, b)) :
    s1.replies = s.replies ∧ s1.log = s.log ∧
    s1.prepare_quorums = s.prepare_quorums ∧
    s1.commit_quorums = s.commit_quorums := by
  unfold PbftReplica.submitPrepare at h
  split at h
  · split at h
    · exact absurd h (by simp)
    · cases h; exact ⟨rfl, rfl, rfl, rfl⟩
  · dsimp only at h
    split at h
    · cases h; exact ⟨rfl, rfl, rfl, rfl⟩
    · cases h; exact ⟨rfl, rfl, rfl, rfl⟩

theorem submitCommit_fields {s : PbftReplica} {c : Commit}
    {s1 : PbftReplica} {b : Bool} (h : s.submitCommit c = some (s1, b)) :
    s1.replies = s.replies ∧ s1.log = s.log ∧
    s1.prepare_quorums = s.prepare_quorums ∧
    s1.commit_quorums = s.commit_quorums := by
  unfold PbftReplica.submitCommit at h
  split at h
  · split at h
    · exact absurd h (by simp)
    · cases h; exact ⟨rfl, rfl, rfl, rfl⟩
  · dsimp only at h
    split at h
    · cases h; exact ⟨rfl, rfl, rfl, rfl⟩
    · cases h; exact ⟨rfl, rfl, rfl, rfl⟩

theorem drainPP_fields {op : Nat} {fuel : Nat} {s s2 : PbftReplica}
    (h : PbftReplica.drainPP op fuel s = some s2) :
    s2.replies = s.replies ∧ s2.log = s.log ∧
    s2.prepare_quorums = s.prepare_quorums ∧
    s2.commit_quorums = s.commit_quorums := by
  induction fuel generalizing s with
  | zero =>
    unfold PbftReplica.drainPP at h
    cases h
    exact ⟨rfl, rfl, rfl, rfl⟩
  | succ fuel ih =>
    unfold PbftReplica.drainPP at h
    split at h
    · cases h; exact ⟨rfl, rfl, rfl, rfl⟩
    · split at h
      · cases h; exact ⟨rfl, rfl, rfl, rfl⟩
      · dsimp only at h
        split at h
        · exact absurd h (by simp)
        · rename_i heq
          cases h
          have := submitPrepare_fields heq
          exact ⟨this.1, this.2.1, this.2.2.1, this.2.2.2⟩
        · rename_i heq
          have h1 := submitPrepare_fields heq
          have h2 := ih h
          exact ⟨h2.1.trans h1.1, h2.2.1.trans h1.2.1,
            h2.2.2.1.trans h1.2.2.1, h2.2.2.2.trans h1.2.2.2⟩

theorem drainPC_fields {op : Nat} {fuel : Nat} {s s2 : PbftReplica}
    (h : PbftReplica.drainPC op fuel s = some s2) :
    s2.replies = s.replies ∧ s2.log = s.log ∧
    s2.prepare_quorums = s.prepare_quorums ∧
    s2.commit_quorums = s.commit_quorums := by
  induction fuel generalizing s with
  | zero =>
    unfold PbftReplica.drainPC at h
    cases h
    exact ⟨rfl, rfl, rfl, rfl⟩
  | succ fuel ih =>
    unfold PbftReplica.drainPC at h
    split at h
    · cases h; exact ⟨rfl, rfl, rfl, rfl⟩
    · split at h
      · cases h; exact ⟨rfl, rfl, rfl, rfl⟩
      · dsimp only at h
        split at h
        · exact absurd h (by simp)
        · rename_i heq
          cases h
          have := submitCommit_fields heq
          exact ⟨this.1, this.2.1, this.2.2.1, this.2.2.2⟩
        · rename_i heq
          have h1 := submitCommit_fields heq
          have h2 := ih h
          exact ⟨h2.1.trans h1.1, h2.2.1.trans h1.2.1,
            h2.2.2.1.trans h1.2.2.1, h2.2.2.2.trans h1.2.2.2⟩

theorem closeBatch_fields {s s1 : PbftReplica} {out : List PbftOut}
    (h : s.closeBatch = some (s1, out)) :
    s1.replies = s.replies ∧ s1.log = s.log ∧
    s1.prepare_quorums = s.prepare_quorums ∧
    s1.commit_quorums = s.commit_quorums := by
  unfold PbftReplica.closeBatch at h
  split at h
  · exact absurd h (by simp)
  · split at h
    · exact absurd h (by simp)
    · cases h; exact ⟨rfl, rfl, rfl, rfl⟩

theorem closeBatchLoop_fields {fuel : Nat} {s s2 : PbftReplica}
    {out : List PbftOut}
    (h : PbftReplica.closeBatchLoop fuel s = some (s2, out)) :
    s2.replies = s.replies ∧ s2.log = s.log ∧
    s2.prepare_quorums = s.prepare_quorums ∧
    s2.commit_quorums = s.commit_quorums := by
  induction fuel generalizing s out with
  | zero =>
    unfold PbftReplica.closeBatchLoop at h
    cases h
    exact ⟨rfl, rfl, rfl, rfl⟩
  | succ fuel ih =>
    unfold PbftReplica.closeBatchLoop at h
    split at h
    · cases hcb : s.closeBatch with
      | none => rw [hcb] at h; exact absurd h (by simp)
      | some pr =>
        obtain ⟨s1, out1⟩ := pr
        rw [hcb] at h
        dsimp only at h
        cases hloop : PbftReplica.closeBatchLoop fuel s1 with
        | none => rw [hloop] at h; exact absurd h (by simp)
        | some pr2 =>
          obtain ⟨s2', out2'⟩ := pr2
          rw [hloop] at h
          dsimp only at h
          cases h
          have h1 := closeBatch_fields hcb
          have h2 := ih hloop
          exact ⟨h2.1.trans h1.1, h2.2.1.trans h1.2.1,
            h2.2.2.1.trans h1.2.2.1, h2.2.2.2.trans h1.2.2.2⟩
    · cases h; exact ⟨rfl, rfl, rfl, rfl⟩

theorem execRequests_fields (s : PbftReplica) (rs : List Request) :
    (PbftReplica.execRequests s rs).1.log = s.log ∧
    (PbftReplica.execRequests s rs).1.prepare_quorums = s.prepare_quorums ∧
    (PbftReplica.execRequests s rs).1.commit_quorums = s.commit_quorums ∧
    (PbftReplica.execRequests s rs).1.commit_num = s.commit_num := by
  induction rs generalizing s with
  | nil => exact ⟨rfl, rfl, rfl, rfl⟩
  | cons r rest ih =>
    unfold PbftReplica.execRequests
    dsimp only
    split
    · exact ih _
    · exact ih _

theorem execRequests_mono (s : PbftReplica) (rs : List Request) :
    repliesMono s (PbftReplica.execRequests s rs).1 := by
  induction rs generalizing s with
  | nil => exact repliesMono_of_eq rfl
  | cons r rest ih =>
    unfold PbftReplica.execRequests
    dsimp only
    split
    · rename_i hins
      refine repliesMono_trans ?_ (ih _)
      intro cid p hp
      by_cases hc : cid = r.client_id
      · subst hc
        refine ⟨(r.seq, some _), by dsimp only; rw [alGet_alInsert_self], ?_⟩
        rw [hp] at hins
        simpa using hins
      · exact ⟨p, by dsimp only; rw [alGet_alInsert_ne _ _ hc]; exact hp,
          le_refl _⟩
    · exact ih _

theorem commitLoop_fields (fuel : Nat) (s : PbftReplica) :
    (PbftReplica.commitLoop fuel s).1.log = s.log ∧
    (PbftReplica.commitLoop fuel s).1.prepare_quorums = s.prepare_quorums ∧
    (PbftReplica.commitLoop fuel s).1.commit_quorums = s.commit_quorums := by
  induction fuel generalizing s with
  | zero => exact ⟨rfl, rfl, rfl⟩
  | succ fuel ih =>
    unfold PbftReplica.commitLoop
    split
    · exact ⟨rfl, rfl, rfl⟩
    · split
      · exact ⟨rfl, rfl, rfl⟩
      · dsimp only
        rename_i entry hget hcom
        have h1 := execRequests_fields
          { s with commit_num := s.commit_num + 1 } entry.requests
        have h2 := ih (PbftReplica.execRequests
          { s with commit_num := s.commit_num + 1 } entry.requests).1
        exact ⟨h2.1.trans h1.1, h2.2.1.trans h1.2.1, h2.2.2.trans h1.2.2.1⟩

theorem commitLoop_mono (fuel : Nat) (s : PbftReplica) :
    repliesMono s (PbftReplica.commitLoop fuel s).1 := by
  induction fuel generalizing s with
  | zero => exact repliesMono_of_eq rfl
  | succ fuel ih =>
    unfold PbftReplica.commitLoop
    split
    · exact repliesMono_of_eq rfl
    · split
      · exact repliesMono_of_eq rfl
      · dsimp only
        rename_i entry hget hcom
        refine repliesMono_trans (repliesMono_trans
          (repliesMono_of_eq (rfl :
            ({ s with commit_num := s.commit_num + 1 } :
              PbftReplica).replies = s.replies))
          (execRequests_mono _ entry.requests)) (ih _)

theorem insertPrepare_replies {s : PbftReplica} {p : Prepare}
    {s1 : PbftReplica} {out : List PbftOut}
    (h : s.insertPrepare p = some (s1, out)) : s1.replies = s.replies := by
  unfold PbftReplica.insertPrepare at h
  dsimp only at h
  split at h
  · cases h; rfl
  · split at h
    · cases h; rfl
    · split at h
      · exact absurd h (by simp)
      · cases h; rfl

theorem insertCommit_mono {s : PbftReplica} {c : Commit} {s' : PbftReplica}
    {out : List PbftOut} (h : s.insertCommit c = some (s', out)) :
    repliesMono s s' := by
  unfold PbftReplica.insertCommit at h
  dsimp only at h
  split at h
  · cases h; exact repliesMono_of_eq rfl
  · split at h
    · cases h; exact repliesMono_of_eq rfl
    · split at h
      · exact absurd h (by simp)
      · split at h
        · cases h; exact repliesMono_of_eq rfl
        · split at h
          · exact absurd h (by simp)
          · rename_i s4 out2 hc
            cases h
            refine repliesMono_trans ?_
              (repliesMono_of_eq (closeBatchLoop_fields hc).1)
            refine repliesMono_trans (repliesMono_of_eq ?_)
              (commitLoop_mono _ _)
            rfl

theorem handleSignedPrePrepare_fields {s : PbftReplica} {pp : PrePrepare}
    {reqs : List Request} {s' : PbftReplica} {out : List PbftOut}
    (h : PbftReplica.handleSignedPrePrepare s pp reqs = some (s', out)) :
    s'.replies = s.replies ∧ s'.prepare_quorums = s.prepare_quorums ∧
    s'.commit_quorums = s.commit_quorums := by
  unfold PbftReplica.handleSignedPrePrepare at h
  split at h
  · cases h; exact ⟨rfl, rfl, rfl⟩
  · dsimp only at h
    split at h
    · exact absurd h (by simp)
    · split at h
      · exact absurd h (by simp)
      · cases h; exact ⟨rfl, rfl, rfl⟩

theorem handleRecvPrePrepare_fields {s : PbftReplica} {pp : PrePrepare}
    {reqs : List Request} {s' : PbftReplica} {out : List PbftOut}
    (h : PbftReplica.handleRecvPrePrepare s pp reqs = some (s', out)) :
    s'.replies = s.replies ∧ s'.log = s.log ∧
    s'.prepare_quorums = s.prepare_quorums ∧
    s'.commit_quorums = s.commit_quorums := by
  unfold PbftReplica.handleRecvPrePrepare at h
  split at h
  · split at h
    · exact absurd h (by simp)
    · cases h; exact ⟨rfl, rfl, rfl, rfl⟩
  · dsimp only at h
    split at h
    · cases h; exact ⟨rfl, rfl, rfl, rfl⟩
    · cases h; exact ⟨rfl, rfl, rfl, rfl⟩

theorem handleVerifiedPrePrepare_replies {s : PbftReplica} {pp : PrePrepare}
    {reqs : List Request} {s' : PbftReplica} {out : List PbftOut}
    (h : PbftReplica.handleVerifiedPrePrepare s pp reqs = some (s', out)) :
    s'.replies = s.replies := by
  unfold PbftReplica.handleVerifiedPrePrepare at h
  split at h
  · cases h; rfl
  · dsimp only at h
    split at h
    · exact absurd h (by simp)
    · split at h
      · cases h; rfl
      · cases h; rfl

theorem handleRecvPrepare_fields {s : PbftReplica} {p : Prepare}
    {s' : PbftReplica} {out : List PbftOut}
    (h : PbftReplica.handleRecvPrepare s p = some (s', out)) :
    s'.replies = s.replies ∧ s'.log = s.log ∧
    s'.prepare_quorums = s.prepare_quorums ∧
    s'.commit_quorums = s.commit_quorums := by
  unfold PbftReplica.handleRecvPrepare at h
  split at h
  · cases h; exact ⟨rfl, rfl, rfl, rfl⟩
  · cases hsub : s.submitPrepare p with
    | none => rw [hsub] at h; exact absurd h (by simp)
    | some pr =>
      obtain ⟨s1, b⟩ := pr
      rw [hsub] at h
      cases b
      · dsimp only at h
        cases h
        exact submitPrepare_fields hsub
      · dsimp only at h
        cases h
        have hf := submitPrepare_fields hsub
        exact ⟨hf.1, hf.2.1, hf.2.2.1, hf.2.2.2⟩

theorem handleRecvCommit_fields {s : PbftReplica} {c : Commit}
    {s' : PbftReplica} {out : List PbftOut}
    (h : PbftReplica.handleRecvCommit s c = some (s', out)) :
    s'.replies = s.replies ∧ s'.log = s.log ∧
    s'.prepare_quorums = s.prepare_quorums ∧
    s'.commit_quorums = s.commit_quorums := by
  unfold PbftReplica.handleRecvCommit at h
  split at h
  · cases h; exact ⟨rfl, rfl, rfl, rfl⟩
  · cases hsub : s.submitCommit c with
    | none => rw [hsub] at h; exact absurd h (by simp)
    | some pr =>
      obtain ⟨s1, b⟩ := pr
      rw [hsub] at h
      cases b
      · dsimp only at h
        cases h
        exact submitCommit_fields hsub
      · dsimp only at h
        cases h
        have hf := submitCommit_fields hsub
        exact ⟨hf.1, hf.2.1, hf.2.2.1, hf.2.2.2⟩

theorem handleSignedPrepare_replies {s : PbftReplica} {p : Prepare}
    {s' : PbftReplica} {out : List PbftOut}
    (h : PbftReplica.handleSignedPrepare s p = some (s', out)) :
    s'.replies = s.replies := by
  unfold PbftReplica.handleSignedPrepare at h
  split at h
  · cases h; rfl
  · split at h
    · exact absurd h (by simp)
    · split at h
      · cases hip : s.insertPrepare p with
        | none => rw [hip] at h; exact absurd h (by simp)
        | some pr =>
          obtain ⟨s1, out2⟩ := pr
          rw [hip] at h
          dsimp only at h
          cases h
          exact insertPrepare_replies hip
      · cases h; rfl

theorem handleVerifiedPrepare_replies {s : PbftReplica} {p : Prepare}
    {s' : PbftReplica} {out : List PbftOut}
    (h : PbftReplica.handleVerifiedPrepare s p = some (s', out)) :
    s'.replies = s.replies := by
  unfold PbftReplica.handleVerifiedPrepare at h
  split at h
  · cases h; rfl
  · cases hip : s.insertPrepare p with
    | none => rw [hip] at h; exact absurd h (by simp)
    | some pr =>
      obtain ⟨s1, out1⟩ := pr
      rw [hip] at h
      dsimp only at h
      cases hd : PbftReplica.drainPP p.op_num
          (((alGet p.op_num s1.pending_prepares).getD []).length + 1) s1 with
      | none => rw [hd] at h; exact absurd h (by simp)
      | some s2 =>
        rw [hd] at h
        dsimp only at h
        cases h
        exact (drainPP_fields hd).1.trans (insertPrepare_replies hip)

theorem handleSignedCommit_mono {s : PbftReplica} {c : Commit}
    {s' : PbftReplica} {out : List PbftOut}
    (h : PbftReplica.handleSignedCommit s c = some (s', out)) :
    repliesMono s s' := by
  unfold PbftReplica.handleSignedCommit at h
  split at h
  · cases h; exact repliesMono_of_eq rfl
  · split at h
    · exact absurd h (by simp)
    · split at h
      · cases hic : s.insertCommit c with
        | none => rw [hic] at h; exact absurd h (by simp)
        | some pr =>
          obtain ⟨s1, out2⟩ := pr
          rw [hic] at h
          dsimp only at h
          cases h
          exact insertCommit_mono hic
      · cases h; exact repliesMono_of_eq rfl

theorem handleVerifiedCommit_mono {s : PbftReplica} {c : Commit}
    {s' : PbftReplica} {out : List PbftOut}
    (h : PbftReplica.handleVerifiedCommit s c = some (s', out)) :
    repliesMono s s' := by
  unfold PbftReplica.handleVerifiedCommit at h
  split at h
  · cases h; exact repliesMono_of_eq rfl
  · cases hic : s.insertCommit c with
    | none => rw [hic] at h; exact absurd h (by simp)
    | some pr =>
      obtain ⟨s1, out1⟩ := pr
      rw [hic] at h
      dsimp only at h
      cases hd : PbftReplica.drainPC c.op_num
          (((alGet c.op_num s1.pending_commits).getD []).length + 1) s1 with
      | none => rw [hd] at h; exact absurd h (by simp)
      | some s2 =>
        rw [hd] at h
        dsimp only at h
        cases h
        exact repliesMono_trans (insertCommit_mono hic)
          (repliesMono_of_eq (drainPC_fields hd).1)

theorem handleRequest_mono {s : PbftReplica} {r : Request}
    {s' : PbftReplica} {out : List PbftOut}
    (h : s.handleRequest r = some (s', out)) : repliesMono s s' := by
  unfold PbftReplica.handleRequest at h
  dsimp only at h
  cases hget : alGet r.client_id s.replies with
  | some pr =>
    obtain ⟨seq, rep⟩ := pr
    rw [hget] at h
    dsimp only at h
    by_cases h1 : seq > r.seq
    · rw [if_pos h1] at h
      dsimp only at h
      cases h
      exact repliesMono_of_eq rfl
    · rw [if_neg h1] at h
      by_cases h2 : seq = r.seq
      · rw [if_pos h2] at h
        dsimp only at h
        cases h
        exact repliesMono_of_eq rfl
      · rw [if_neg h2] at h
        dsimp only at h
        split at h
        · exact absurd h (by simp)
        · have hlt : seq < r.seq := by omega
          have hmono1 : repliesMono s { s with
              replies := alInsert r.client_id (r.seq, none) s.replies,
              requests := s.requests ++ [r] } := by
            intro cid p hp
            by_cases hc : cid = r.client_id
            · subst hc
              rw [hp] at hget
              cases hget
              exact ⟨(r.seq, none),
                by dsimp only; rw [alGet_alInsert_self], by omega⟩
            · exact ⟨p, by dsimp only; rw [alGet_alInsert_ne _ _ hc]; exact hp,
                le_refl _⟩
          split at h
          · cases hcb : PbftReplica.closeBatch { s with
                replies := alInsert r.client_id (r.seq, none) s.replies,
                requests := s.requests ++ [r] } with
            | none => rw [hcb] at h; exact absurd h (by simp)
            | some pr2 =>
              obtain ⟨s2, out2⟩ := pr2
              rw [hcb] at h
              cases h
              exact repliesMono_trans hmono1
                (repliesMono_of_eq (closeBatch_fields hcb).1)
          · cases h
            exact hmono1
  | none =>
    rw [hget] at h
    dsimp only at h
    split at h
    · exact absurd h (by simp)
    · have hmono1 : repliesMono s { s with
          replies := alInsert r.client_id (r.seq, none) s.replies,
          requests := s.requests ++ [r] } := by
        intro cid p hp
        by_cases hc : cid = r.client_id
        · subst hc
          rw [hp] at hget
          exact absurd hget (by simp)
        · exact ⟨p, by dsimp only; rw [alGet_alInsert_ne _ _ hc]; exact hp,
            le_refl _⟩
      split at h
      · cases hcb : PbftReplica.closeBatch { s with
            replies := alInsert r.client_id (r.seq, none) s.replies,
            requests := s.requests ++ [r] } with
        | none => rw [hcb] at h; exact absurd h (by simp)
        | some pr2 =>
          obtain ⟨s2, out2⟩ := pr2
          rw [hcb] at h
          cases h
          exact repliesMono_trans hmono1
            (repliesMono_of_eq (closeBatch_fields hcb).1)
      · cases h
        exact hmono1

/-! ## Claim C7: at-most-once per client -/

/-- C7: across every event the cached per-client reply seq never decreases;
a Request with seq below the cache changes nothing; a Request with seq equal
to the cache re-sends the cached Reply (when present) to the request's
client address with the whole state (op_num included) unchanged. -/
theorem C7_theorem (s : PbftReplica) (e : PbftEvent) (s' : PbftReplica)
    (out : List PbftOut) (h : pbftStep s e = some (s', out)) :
    (∀ cid p, alGet cid s.replies = some p →
      ∃ p', alGet cid s'.replies = some p' ∧ p.1 ≤ p'.1) ∧
    (∀ r seq rep, e = PbftEvent.RecvRequest r →
      alGet r.client_id s.replies = some (seq, rep) →
      (r.seq < seq → s' = s ∧ out = []) ∧
      (r.seq = seq → s' = s ∧
        out = (match rep with
          | some rp => [PbftOut.SendReply r.client_addr rp]
          | none => []))) := by
  constructor
  · show repliesMono s s'
    cases e with
    | RecvRequest r =>
      exact handleRequest_mono h
    | SignedPrePrepare pp reqs =>
      simp only [pbftStep] at h
      split at h
      · refine repliesMono_trans (repliesMono_of_eq ?_)
          (repliesMono_of_eq (handleSignedPrePrepare_fields h).1)
        rfl
      · exact absurd h (by simp)
    | RecvPrePrepare pp reqs =>
      exact repliesMono_of_eq (handleRecvPrePrepare_fields h).1
    | VerifiedPrePrepare pp reqs =>
      simp only [pbftStep] at h
      split at h
      · refine repliesMono_trans (repliesMono_of_eq ?_)
          (repliesMono_of_eq (handleVerifiedPrePrepare_replies h))
        rfl
      · exact absurd h (by simp)
    | SignedPrepare p =>
      simp only [pbftStep] at h
      split at h
      · refine repliesMono_trans (repliesMono_of_eq ?_)
          (repliesMono_of_eq (handleSignedPrepare_replies h))
        rfl
      · exact absurd h (by simp)
    | RecvPrepare p =>
      exact repliesMono_of_eq (handleRecvPrepare_fields h).1
    | VerifiedPrepare p =>
      simp only [pbftStep] at h
      split at h
      · refine repliesMono_trans (repliesMono_of_eq ?_)
          (repliesMono_of_eq (handleVerifiedPrepare_replies h))
        rfl
      · exact absurd h (by simp)
    | SignedCommit c =>
      simp only [pbftStep] at h
      split at h
      · refine repliesMono_trans (repliesMono_of_eq ?_)
          (handleSignedCommit_mono h)
        rfl
      · exact absurd h (by simp)
    | RecvCommit c =>
      exact repliesMono_of_eq (handleRecvCommit_fields h).1
    | VerifiedCommit c =>
      simp only [pbftStep] at h
      split at h
      · refine repliesMono_trans (repliesMono_of_eq ?_)
          (handleVerifiedCommit_mono h)
        rfl
      · exact absurd h (by simp)
  · intro r seq rep he hget
    subst he
    unfold pbftStep PbftReplica.handleRequest at h
    dsimp only at h
    rw [hget] at h
    dsimp only at h
    constructor
    · intro hlt
      rw [if_pos (by omega : seq > r.seq)] at h
      dsimp only at h
      cases h
      exact ⟨rfl, rfl⟩
    · intro heq
      rw [if_neg (by omega : ¬ seq > r.seq), if_pos (by omega : seq = r.seq)]
        at h
      dsimp only at h
      cases h
      exact ⟨rfl, rfl⟩

/-- C7 witness: the monotonicity conclusion after an equal-seq request that
re-sends the cached reply. -/
theorem C7_witness :
    ∃ p', alGet 9
        ({ pbftInit 0 4 1 with
             replies := [(9, (5, some (Reply.mk 5 7 0 0)))] } :
          PbftReplica).replies = some p' ∧
      ((5 : Nat), some (Reply.mk 5 7 0 0)).1 ≤ p'.1 := by
  have h1 := C7_theorem
    { pbftInit 0 4 1 with replies := [(9, (5, some (Reply.mk 5 7 0 0)))] }
    (PbftEvent.RecvRequest (Request.mk 9 3 5 1))
    { pbftInit 0 4 1 with replies := [(9, (5, some (Reply.mk 5 7 0 0)))] }
    [PbftOut.SendReply 3 (Reply.mk 5 7 0 0)] (by rfl)
  exact h1.1 9 (5, some (Reply.mk 5 7 0 0)) (by rfl)

/-! ### Log and quorum lemmas for C1 -/

theorem alGet_alRemove_self {α : Type} (k : Nat) (l : List (Nat × α)) :
    alGet k (alRemove k l) = none := by
  induction l with
  | nil => rfl
  | cons p t ih =>
    by_cases h1 : p.1 = k
    · have : alRemove k (p :: t) = alRemove k t := by
        simp [alRemove, List.filter_cons, h1]
      rw [this, ih]
    · have : alRemove k (p :: t) = p :: alRemove k t := by
        simp [alRemove, List.filter_cons, h1]
      rw [this, alGet_cons, if_neg h1, ih]

theorem list_get?_set_ne {α : Type} (l : List α) (i j : Nat) (v : α)
    (h : i ≠ j) : (l.set i v).get? j = l.get? j := by
  induction l generalizing i j with
  | nil => simp
  | cons a t ih =>
    cases i with
    | zero =>
      cases j with
      | zero => omega
      | succ j => simp [List.set]
    | succ i =>
      cases j with
      | zero => simp [List.set]
      | succ j =>
        simp only [List.set, List.get?]
        exact ih i j (by omega)

theorem list_get?_set_self {α : Type} (l : List α) (i : Nat) (v : α)
    (h : i < l.length) : (l.set i v).get? i = some v := by
  induction l generalizing i with
  | nil => simp at h
  | cons a t ih =>
    cases i with
    | zero => rfl
    | succ i =>
      simp only [List.set, List.get?]
      exact ih i (by simpa using h)

theorem list_get?_replicate {α : Type} {n i : Nat} {a b : α}
    (h : (List.replicate n a).get? i = some b) : b = a := by
  induction n generalizing i with
  | zero => simp [List.replicate] at h
  | succ n ih =>
    cases i with
    | zero =>
      simp [List.replicate] at h
      exact h.symm
    | succ i =>
      simp only [List.replicate, List.get?] at h
      exact ih h

theorem resizeLog_get? {log : List LogEntry} {n op : Nat} {en : LogEntry}
    (h : (resizeLog log n).get? op = some en) :
    log.get? op = some en ∨ en = emptyLogEntry := by
  unfold resizeLog at h
  by_cases hlt : op < log.length
  · rw [List.get?_append hlt] at h
    exact Or.inl h
  · right
    rw [List.get?_append_right (by omega)] at h
    exact list_get?_replicate h

theorem insertPrepare_log {s : PbftReplica} {p : Prepare} {s1 : PbftReplica}
    {out : List PbftOut} (h : s.insertPrepare p = some (s1, out)) :
    (∀ op, op ≠ p.op_num → s1.log.get? op = s.log.get? op) ∧
    (∀ en', s1.log.get? p.op_num = some en' →
      ∃ en, s.log.get? p.op_num = some en ∧ en'.commits = en.commits ∧
        (en'.prepares = en.prepares ∨
          (en.prepares = [] ∧
            en'.prepares = alInsert p.replica_id p
              ((alGet p.op_num s.prepare_quorums).getD []) ∧
            en'.prepares.length + 1 ≥ s.num_replica - s.num_faulty))) ∧
    (s.log.get? p.op_num = none → s1.log.get? p.op_num = none) := by
  unfold PbftReplica.insertPrepare at h
  dsimp only at h
  split at h
  · cases h
    exact ⟨fun op _ => rfl, fun en' hen' => ⟨en', hen', rfl, Or.inl rfl⟩,
      fun hnone => hnone⟩
  · rename_i hlen
    split at h
    · rename_i hget
      cases h
      exact ⟨fun op _ => rfl, fun en' hen' => ⟨en', hen', rfl, Or.inl rfl⟩,
        fun hnone => hnone⟩
    · rename_i entry hget
      split at h
      · exact absurd h (by simp)
      · rename_i hemp
        have hemp' : entry.prepares = [] := by
          simpa [List.isEmpty_iff] using of_not_not hemp
        cases h
        refine ⟨?_, ?_, ?_⟩
        · intro op hop
          dsimp only
          exact list_get?_set_ne _ _ _ _ (fun he => hop he.symm)
        · intro en' hen'
          dsimp only at hen'
          have hrange : p.op_num < s.log.length := by
            by_contra hc
            rw [List.get?_eq_none.mpr (by omega)] at hget
            exact absurd hget (by simp)
          rw [list_get?_set_self _ _ _ hrange] at hen'
          cases hen'
          exact ⟨entry, hget, rfl, Or.inr ⟨hemp', rfl, by dsimp only; omega⟩⟩
        · intro hnone
          rw [hnone] at hget
          exact absurd hget (by simp)

theorem insertCommit_log {s : PbftReplica} {c : Commit} {s1 : PbftReplica}
    {out : List PbftOut} (h : s.insertCommit c = some (s1, out)) :
    (∀ op, op ≠ c.op_num → s1.log.get? op = s.log.get? op) ∧
    (∀ en', s1.log.get? c.op_num = some en' →
      ∃ en, s.log.get? c.op_num = some en ∧ en'.prepares = en.prepares ∧
        (en'.commits = en.commits ∨
          (en.commits = [] ∧ en.prepares ≠ [] ∧
            en'.commits = alInsert c.replica_id c
              ((alGet c.op_num s.commit_quorums).getD []) ∧
            en'.commits.length ≥ s.num_replica - s.num_faulty))) ∧
    (s.log.get? c.op_num = none → s1.log.get? c.op_num = none) := by
  unfold PbftReplica.insertCommit at h
  dsimp only at h
  split at h
  · cases h
    exact ⟨fun op _ => rfl, fun en' hen' => ⟨en', hen', rfl, Or.inl rfl⟩,
      fun hnone => hnone⟩
  · rename_i hlen
    split at h
    · cases h
      exact ⟨fun op _ => rfl, fun en' hen' => ⟨en', hen', rfl, Or.inl rfl⟩,
        fun hnone => hnone⟩
    · rename_i entry hget
      split at h
      · exact absurd h (by simp)
      · rename_i hcom
        split at h
        · cases h
          exact ⟨fun op _ => rfl, fun en' hen' => ⟨en', hen', rfl, Or.inl rfl⟩,
            fun hnone => hnone⟩
        · rename_i hprep
          split at h
          · exact absurd h (by simp)
          · rename_i s4 out2 hloop
            cases h
            have hcom' : entry.commits = [] := by
              simpa [List.isEmpty_iff] using of_not_not hcom
            have hprep' : entry.prepares ≠ [] := by
              simpa [List.isEmpty_iff] using hprep
            have hlog4 : s1.log = (PbftReplica.commitLoop _ _).1.log :=
              (closeBatchLoop_fields hloop).2.1
            refine ⟨?_, ?_, ?_⟩
            · intro op hop
              rw [hlog4, (commitLoop_fields _ _).1]
              dsimp only
              exact list_get?_set_ne _ _ _ _ (fun he => hop he.symm)
            · intro en' hen'
              rw [hlog4, (commitLoop_fields _ _).1] at hen'
              dsimp only at hen'
              have hrange : c.op_num < s.log.length := by
                by_contra hc2
                rw [List.get?_eq_none.mpr (by omega)] at hget
                exact absurd hget (by simp)
              rw [list_get?_set_self _ _ _ hrange] at hen'
              cases hen'
              exact ⟨entry, hget, rfl,
                Or.inr ⟨hcom', hprep', rfl, by dsimp only; omega⟩⟩
            · intro hnone
              rw [hnone] at hget
              exact absurd hget (by simp)

theorem handleSignedPrePrepare_log {s : PbftReplica} {pp : PrePrepare}
    {reqs : List Request} {s' : PbftReplica} {out : List PbftOut}
    (h : PbftReplica.handleSignedPrePrepare s pp reqs = some (s', out)) :
    ∀ op en', s'.log.get? op = some en' →
      (∃ en, s.log.get? op = some en ∧ en'.prepares = en.prepares ∧
        en'.commits = en.commits) ∨
      (en'.prepares = [] ∧ en'.commits = []) := by
  unfold PbftReplica.handleSignedPrePrepare at h
  split at h
  · cases h
    exact fun op en' hen' => Or.inl ⟨en', hen', rfl, rfl⟩
  · dsimp only at h
    split at h
    · exact absurd h (by simp)
    · rename_i entry hget
      split at h
      · exact absurd h (by simp)
      · cases h
        intro op en' hen'
        dsimp only at hen'
        by_cases hop : op = pp.op_num
        · subst hop
          have hrange : pp.op_num <
              (if (s.log.get? pp.op_num).isNone then
                resizeLog s.log (pp.op_num + 1)
               else s.log).length := by
            by_contra hc
            rw [List.get?_eq_none.mpr (by omega)] at hget
            exact absurd hget (by simp)
          rw [list_get?_set_self _ _ _ hrange] at hen'
          cases hen'
          split at hget
          · rcases resizeLog_get? hget with h' | h'
            · exact Or.inl ⟨entry, h', rfl, rfl⟩
            · subst h'
              exact Or.inr ⟨rfl, rfl⟩
          · exact Or.inl ⟨entry, hget, rfl, rfl⟩
        · rw [list_get?_set_ne _ _ _ _ (fun he => hop he.symm)] at hen'
          split at hen'
          · rcases resizeLog_get? hen' with h' | h'
            · exact Or.inl ⟨en', h', rfl, rfl⟩
            · subst h'
              exact Or.inr ⟨rfl, rfl⟩
          · exact Or.inl ⟨en', hen', rfl, rfl⟩

theorem handleVerifiedPrePrepare_log {s : PbftReplica} {pp : PrePrepare}
    {reqs : List Request} {s' : PbftReplica} {out : List PbftOut}
    (h : PbftReplica.handleVerifiedPrePrepare s pp reqs = some (s', out)) :
    ∀ op en', s'.log.get? op = some en' →
      (∃ en, s.log.get? op = some en ∧ en'.prepares = en.prepares ∧
        en'.commits = en.commits) ∨
      (en'.prepares = [] ∧ en'.commits = []) := by
  unfold PbftReplica.handleVerifiedPrePrepare at h
  split at h
  · cases h
    exact fun op en' hen' => Or.inl ⟨en', hen', rfl, rfl⟩
  · dsimp only at h
    split at h
    · exact absurd h (by simp)
    · rename_i entry hget
      split at h
      · cases h
        intro op en' hen'
        dsimp only at hen'
        split at hen'
        · rcases resizeLog_get? hen' with h' | h'
          · exact Or.inl ⟨en', h', rfl, rfl⟩
          · subst h'
            exact Or.inr ⟨rfl, rfl⟩
        · exact Or.inl ⟨en', hen', rfl, rfl⟩
      · cases h
        intro op en' hen'
        dsimp only at hen'
        by_cases hop : op = pp.op_num
        · subst hop
          have hrange : pp.op_num <
              (if (s.log.get? pp.op_num).isNone then
                resizeLog s.log (pp.op_num + 1)
               else s.log).length := by
            by_contra hc
            rw [List.get?_eq_none.mpr (by omega)] at hget
            exact absurd hget (by simp)
          rw [list_get?_set_self _ _ _ hrange] at hen'
          cases hen'
          split at hget
          · rcases resizeLog_get? hget with h' | h'
            · exact Or.inl ⟨entry, h', rfl, rfl⟩
            · subst h'
              exact Or.inr ⟨rfl, rfl⟩
          · exact Or.inl ⟨entry, hget, rfl, rfl⟩
        · rw [list_get?_set_ne _ _ _ _ (fun he => hop he.symm)] at hen'
          split at hen'
          · rcases resizeLog_get? hen' with h' | h'
            · exact Or.inl ⟨en', h', rfl, rfl⟩
            · subst h'
              exact Or.inr ⟨rfl, rfl⟩
          · exact Or.inl ⟨en', hen', rfl, rfl⟩

theorem handleSignedPrepare_case {s : PbftReplica} {p : Prepare}
    {s' : PbftReplica} {out : List PbftOut}
    (h : PbftReplica.handleSignedPrepare s p = some (s', out)) :
    s'.log = s.log ∨ ∃ out1, s.insertPrepare p = some (s', out1) := by
  unfold PbftReplica.handleSignedPrepare at h
  split at h
  · cases h; exact Or.inl rfl
  · split at h
    · exact absurd h (by simp)
    · split at h
      · cases hip : s.insertPrepare p with
        | none => rw [hip] at h; exact absurd h (by simp)
        | some pr =>
          obtain ⟨s1, out2⟩ := pr
          rw [hip] at h
          dsimp only at h
          cases h
          exact Or.inr ⟨out2, rfl⟩
      · cases h; exact Or.inl rfl

theorem handleVerifiedPrepare_case {s : PbftReplica} {p : Prepare}
    {s' : PbftReplica} {out : List PbftOut}
    (h : PbftReplica.handleVerifiedPrepare s p = some (s', out)) :
    s'.log = s.log ∨
      ∃ s1 out1, s.insertPrepare p = some (s1, out1) ∧ s'.log = s1.log := by
  unfold PbftReplica.handleVerifiedPrepare at h
  split at h
  · cases h; exact Or.inl rfl
  · cases hip : s.insertPrepare p with
    | none => rw [hip] at h; exact absurd h (by simp)
    | some pr =>
      obtain ⟨s1, out1⟩ := pr
      rw [hip] at h
      dsimp only at h
      cases hd : PbftReplica.drainPP p.op_num
          (((alGet p.op_num s1.pending_prepares).getD []).length + 1) s1 with
      | none => rw [hd] at h; exact absurd h (by simp)
      | some s2 =>
        rw [hd] at h
        dsimp only at h
        cases h
        exact Or.inr ⟨s1, out, rfl, (drainPP_fields hd).2.1⟩

theorem handleSignedCommit_case {s : PbftReplica} {c : Commit}
    {s' : PbftReplica} {out : List PbftOut}
    (h : PbftReplica.handleSignedCommit s c = some (s', out)) :
    s'.log = s.log ∨ ∃ out1, s.insertCommit c = some (s', out1) := by
  unfold PbftReplica.handleSignedCommit at h
  split at h
  · cases h; exact Or.inl rfl
  · split at h
    · exact absurd h (by simp)
    · split at h
      · cases hic : s.insertCommit c with
        | none => rw [hic] at h; exact absurd h (by simp)
        | some pr =>
          obtain ⟨s1, out2⟩ := pr
          rw [hic] at h
          dsimp only at h
          cases h
          exact Or.inr ⟨out2, rfl⟩
      · cases h; exact Or.inl rfl

theorem handleVerifiedCommit_case {s : PbftReplica} {c : Commit}
    {s' : PbftReplica} {out : List PbftOut}
    (h : PbftReplica.handleVerifiedCommit s c = some (s', out)) :
    s'.log = s.log ∨
      ∃ s1 out1, s.insertCommit c = some (s1, out1) ∧ s'.log = s1.log := by
  unfold PbftReplica.handleVerifiedCommit at h
  split at h
  · cases h; exact Or.inl rfl
  · cases hic : s.insertCommit c with
    | none => rw [hic] at h; exact absurd h (by simp)
    | some pr =>
      obtain ⟨s1, out1⟩ := pr
      rw [hic] at h
      dsimp only at h
      cases hd : PbftReplica.drainPC c.op_num
          (((alGet c.op_num s1.pending_commits).getD []).length + 1) s1 with
      | none => rw [hd] at h; exact absurd h (by simp)
      | some s2 =>
        rw [hd] at h
        dsimp only at h
        cases h
        exact Or.inr ⟨s1, out, rfl, (drainPC_fields hd).2.1⟩

theorem alGet_alInsert_cases {α : Type} {k k' : Nat} {v v' : α}
    {l : List (Nat × α)} (h : alGet k' (alInsert k v l) = some v') :
    v' = v ∨ alGet k' l = some v' := by
  by_cases hk : k' = k
  · subst hk
    rw [alGet_alInsert_self] at h
    exact Or.inl (Option.some.inj h).symm
  · rw [alGet_alInsert_ne _ _ hk] at h
    exact Or.inr h

theorem alGet_alRemove_cases {α : Type} {k k' : Nat} {v' : α}
    {l : List (Nat × α)} (h : alGet k' (alRemove k l) = some v') :
    alGet k' l = some v' := by
  by_cases hk : k' = k
  · subst hk
    rw [alGet_alRemove_self] at h
    exact absurd h (by simp)
  · rw [alGet_alRemove_ne _ hk] at h
    exact h

theorem QWF_of_eq {s s' : PbftReplica}
    (hp : s'.prepare_quorums = s.prepare_quorums)
    (hc : s'.commit_quorums = s.commit_quorums) (hw : QWF s) : QWF s' := by
  constructor
  · intro op q hget
    rw [hp] at hget
    exact hw.1 op q hget
  · intro op q hget
    rw [hc] at hget
    exact hw.2 op q hget

theorem QWF_pq_getD {s : PbftReplica} (hw : QWF s) (op : Nat) :
    alSorted ((alGet op s.prepare_quorums).getD []) := by
  cases hget : alGet op s.prepare_quorums with
  | none => simp [alSorted, alKeys]
  | some q => exact hw.1 op q hget

theorem QWF_cq_getD {s : PbftReplica} (hw : QWF s) (op : Nat) :
    alSorted ((alGet op s.commit_quorums).getD []) := by
  cases hget : alGet op s.commit_quorums with
  | none => simp [alSorted, alKeys]
  | some q => exact hw.2 op q hget

theorem insertPrepare_qwf {s : PbftReplica} {p : Prepare} {s1 : PbftReplica}
    {out : List PbftOut} (hw : QWF s)
    (h : s.insertPrepare p = some (s1, out)) : QWF s1 := by
  unfold PbftReplica.insertPrepare at h
  dsimp only at h
  have hq : alSorted (alInsert p.replica_id p
      ((alGet p.op_num s.prepare_quorums).getD [])) :=
    alSorted_alInsert _ _ (QWF_pq_getD hw p.op_num)
  split at h
  · cases h
    refine ⟨?_, hw.2⟩
    intro op q' hget
    rcases alGet_alInsert_cases hget with h' | h'
    · subst h'; exact hq
    · exact hw.1 op q' h'
  · split at h
    · cases h
      refine ⟨?_, hw.2⟩
      intro op q' hget
      rcases alGet_alInsert_cases hget with h' | h'
      · subst h'; exact hq
      · exact hw.1 op q' h'
    · split at h
      · exact absurd h (by simp)
      · cases h
        refine ⟨?_, hw.2⟩
        intro op q' hget
        dsimp only at hget
        rcases alGet_alInsert_cases (alGet_alRemove_cases hget) with h' | h'
        · subst h'; exact hq
        · exact hw.1 op q' h'

theorem insertCommit_qwf {s : PbftReplica} {c : Commit} {s1 : PbftReplica}
    {out : List PbftOut} (hw : QWF s)
    (h : s.insertCommit c = some (s1, out)) : QWF s1 := by
  unfold PbftReplica.insertCommit at h
  dsimp only at h
  have hq : alSorted (alInsert c.replica_id c
      ((alGet c.op_num s.commit_quorums).getD [])) :=
    alSorted_alInsert _ _ (QWF_cq_getD hw c.op_num)
  split at h
  · cases h
    refine ⟨hw.1, ?_⟩
    intro op q' hget
    rcases alGet_alInsert_cases hget with h' | h'
    · subst h'; exact hq
    · exact hw.2 op q' h'
  · split at h
    · cases h
      refine ⟨hw.1, ?_⟩
      intro op q' hget
      rcases alGet_alInsert_cases hget with h' | h'
      · subst h'; exact hq
      · exact hw.2 op q' h'
    · split at h
      · exact absurd h (by simp)
      · split at h
        · cases h
          refine ⟨hw.1, ?_⟩
          intro op q' hget
          rcases alGet_alInsert_cases hget with h' | h'
          · subst h'; exact hq
          · exact hw.2 op q' h'
        · split at h
          · exact absurd h (by simp)
          · rename_i s4 out2 hloop
            cases h
            refine QWF_of_eq
              ((closeBatchLoop_fields hloop).2.2.1.trans
                (commitLoop_fields _ _).2.1)
              ((closeBatchLoop_fields hloop).2.2.2.trans
                (commitLoop_fields _ _).2.2)
              ?_
            refine ⟨hw.1, ?_⟩
            intro op q' hget
            dsimp only at hget
            rcases alGet_alInsert_cases (alGet_alRemove_cases hget)
              with h' | h'
            · subst h'; exact hq
            · exact hw.2 op q' h'

theorem handleVerifiedPrePrepare_qwf {s : PbftReplica} {pp : PrePrepare}
    {reqs : List Request} {s' : PbftReplica} {out : List PbftOut}
    (hw : QWF s)
    (h : PbftReplica.handleVerifiedPrePrepare s pp reqs = some (s', out)) :
    QWF s' := by
  unfold PbftReplica.handleVerifiedPrePrepare at h
  split at h
  · cases h; exact hw
  · dsimp only at h
    split at h
    · exact absurd h (by simp)
    · split at h
      · cases h
        exact QWF_of_eq rfl rfl hw
      · cases h
        constructor
        · intro op q' hget
          dsimp only at hget
          split at hget
          · rename_i q0 hq0
            rcases alGet_alInsert_cases hget with h' | h'
            · subst h'
              exact alSorted_filter _ (hw.1 _ _ hq0)
            · exact hw.1 op q' h'
          · exact hw.1 op q' hget
        · intro op q' hget
          dsimp only at hget
          split at hget
          · rename_i q0 hq0
            rcases alGet_alInsert_cases hget with h' | h'
            · subst h'
              exact alSorted_filter _ (hw.2 _ _ hq0)
            · exact hw.2 op q' h'
          · exact hw.2 op q' hget

theorem handleRequest_quorums {s : PbftReplica} {r : Request}
    {s' : PbftReplica} {out : List PbftOut}
    (h : s.handleRequest r = some (s', out)) :
    s'.log = s.log ∧ s'.prepare_quorums = s.prepare_quorums ∧
    s'.commit_quorums = s.commit_quorums := by
  unfold PbftReplica.handleRequest at h
  dsimp only at h
  split at h
  · rename_i res hres
    subst h
    split at hres
    · rename_i seq rep hget
      split at hres
      · cases hres; exact ⟨rfl, rfl, rfl⟩
      · split at hres
        · cases hres; exact ⟨rfl, rfl, rfl⟩
        · exact absurd hres (by simp)
    · exact absurd hres (by simp)
  · split at h
    · exact absurd h (by simp)
    · split at h
      · rename_i hlt
        have := closeBatch_fields h
        exact ⟨this.2.1, this.2.2.1, this.2.2.2⟩
      · cases h; exact ⟨rfl, rfl, rfl⟩

theorem handleSignedPrepare_qwf {s : PbftReplica} {p : Prepare}
    {s' : PbftReplica} {out : List PbftOut} (hw : QWF s)
    (h : PbftReplica.handleSignedPrepare s p = some (s', out)) : QWF s' := by
  unfold PbftReplica.handleSignedPrepare at h
  split at h
  · cases h; exact hw
  · split at h
    · exact absurd h (by simp)
    · split at h
      · cases hip : s.insertPrepare p with
        | none => rw [hip] at h; exact absurd h (by simp)
        | some pr =>
          obtain ⟨s1, out2⟩ := pr
          rw [hip] at h
          dsimp only at h
          cases h
          exact insertPrepare_qwf hw hip
      · cases h; exact hw

theorem handleVerifiedPrepare_qwf {s : PbftReplica} {p : Prepare}
    {s' : PbftReplica} {out : List PbftOut} (hw : QWF s)
    (h : PbftReplica.handleVerifiedPrepare s p = some (s', out)) : QWF s' := by
  unfold PbftReplica.handleVerifiedPrepare at h
  split at h
  · cases h; exact hw
  · cases hip : s.insertPrepare p with
    | none => rw [hip] at h; exact absurd h (by simp)
    | some pr =>
      obtain ⟨s1, out1⟩ := pr
      rw [hip] at h
      dsimp only at h
      cases hd : PbftReplica.drainPP p.op_num
          (((alGet p.op_num s1.pending_prepares).getD []).length + 1) s1 with
      | none => rw [hd] at h; exact absurd h (by simp)
      | some s2 =>
        rw [hd] at h
        dsimp only at h
        cases h
        exact QWF_of_eq (drainPP_fields hd).2.2.1 (drainPP_fields hd).2.2.2
          (insertPrepare_qwf hw hip)

theorem handleSignedCommit_qwf {s : PbftReplica} {c : Commit}
    {s' : PbftReplica} {out : List PbftOut} (hw : QWF s)
    (h : PbftReplica.handleSignedCommit s c = some (s', out)) : QWF s' := by
  unfold PbftReplica.handleSignedCommit at h
  split at h
  · cases h; exact hw
  · split at h
    · exact absurd h (by simp)
    · split at h
      · cases hic : s.insertCommit c with
        | none => rw [hic] at h; exact absurd h (by simp)
        | some pr =>
          obtain ⟨s1, out2⟩ := pr
          rw [hic] at h
          dsimp only at h
          cases h
          exact insertCommit_qwf hw hic
      · cases h; exact hw

theorem handleVerifiedCommit_qwf {s : PbftReplica} {c : Commit}
    {s' : PbftReplica} {out : List PbftOut} (hw : QWF s)
    (h : PbftReplica.handleVerifiedCommit s c = some (s', out)) : QWF s' := by
  unfold PbftReplica.handleVerifiedCommit at h
  split at h
  · cases h; exact hw
  · cases hic : s.insertCommit c with
    | none => rw [hic] at h; exact absurd h (by simp)
    | some pr =>
      obtain ⟨s1, out1⟩ := pr
      rw [hic] at h
      dsimp only at h
      cases hd : PbftReplica.drainPC c.op_num
          (((alGet c.op_num s1.pending_commits).getD []).length + 1) s1 with
      | none => rw [hd] at h; exact absurd h (by simp)
      | some s2 =>
        rw [hd] at h
        dsimp only at h
        cases h
        exact QWF_of_eq (drainPC_fields hd).2.2.1 (drainPC_fields hd).2.2.2
          (insertCommit_qwf hw hic)

theorem pbftStep_qwf {s : PbftReplica} {e : PbftEvent} {s' : PbftReplica}
    {out : List PbftOut} (hw : QWF s)
    (h : pbftStep s e = some (s', out)) : QWF s' := by
  cases e with
  | RecvRequest r =>
    dsimp only [pbftStep] at h
    exact QWF_of_eq (handleRequest_quorums h).2.1
      (handleRequest_quorums h).2.2 hw
  | SignedPrePrepare pp reqs =>
    dsimp only [pbftStep] at h
    split at h
    · exact QWF_of_eq (handleSignedPrePrepare_fields h).2.1
        (handleSignedPrePrepare_fields h).2.2 hw
    · exact absurd h (by simp)
  | RecvPrePrepare pp reqs =>
    dsimp only [pbftStep] at h
    exact QWF_of_eq (handleRecvPrePrepare_fields h).2.2.1
      (handleRecvPrePrepare_fields h).2.2.2 hw
  | VerifiedPrePrepare pp reqs =>
    dsimp only [pbftStep] at h
    split at h
    · refine handleVerifiedPrePrepare_qwf ?_ h
      exact hw
    · exact absurd h (by simp)
  | SignedPrepare p =>
    dsimp only [pbftStep] at h
    split at h
    · refine handleSignedPrepare_qwf ?_ h
      exact hw
    · exact absurd h (by simp)
  | RecvPrepare p =>
    dsimp only [pbftStep] at h
    exact QWF_of_eq (handleRecvPrepare_fields h).2.2.1
      (handleRecvPrepare_fields h).2.2.2 hw
  | VerifiedPrepare p =>
    dsimp only [pbftStep] at h
    split at h
    · refine handleVerifiedPrepare_qwf ?_ h
      exact hw
    · exact absurd h (by simp)
  | SignedCommit c =>
    dsimp only [pbftStep] at h
    split at h
    · refine handleSignedCommit_qwf ?_ h
      exact hw
    · exact absurd h (by simp)
  | RecvCommit c =>
    dsimp only [pbftStep] at h
    exact QWF_of_eq (handleRecvCommit_fields h).2.2.1
      (handleRecvCommit_fields h).2.2.2 hw
  | VerifiedCommit c =>
    dsimp only [pbftStep] at h
    split at h
    · refine handleVerifiedCommit_qwf ?_ h
      exact hw
    · exact absurd h (by simp)

theorem pbftInit_qwf (id n f : Nat) : QWF (pbftInit id n f) := by
  constructor
  · intro op q hget
    exact absurd hget (by simp [pbftInit, alGet])
  · intro op q hget
    exact absurd hget (by simp [pbftInit, alGet])

theorem pbftSteps_qwf {s s' : PbftReplica} {es : List PbftEvent}
    (hw : QWF s) (h : pbftSteps s es = some s') : QWF s' := by
  induction es generalizing s with
  | nil =>
    unfold pbftSteps at h
    cases h
    exact hw
  | cons e es ih =>
    unfold pbftSteps at h
    split at h
    · exact absurd h (by simp)
    · rename_i pr hstep
      exact ih (pbftStep_qwf hw hstep) h

theorem reachable_QWF {s : PbftReplica} (hr : PbftReachable s) : QWF s := by
  obtain ⟨id, n, f, es, h⟩ := hr
  exact pbftSteps_qwf (pbftInit_qwf id n f) h

theorem c1Core_of_eq {s s' : PbftReplica} (hlog : s'.log = s.log) (op : Nat) :
    C1Core s s' op := by
  constructor
  · intro en en' he he'
    rw [hlog, he] at he'
    cases he'
    exact ⟨fun h1 h2 => absurd h1 h2, fun h1 h2 => absurd h1 h2⟩
  · intro en' hn he'
    rw [hlog, hn] at he'
    exact absurd he' (by simp)

theorem c1Core_congr {s s1 s' : PbftReplica} {op : Nat}
    (h : C1Core s s1 op) (hlog : s'.log = s1.log) : C1Core s s' op := by
  constructor
  · intro en en' he he'
    rw [hlog] at he'
    exact h.1 en en' he he'
  · intro en' hn he'
    rw [hlog] at he'
    exact h.2 en' hn he'

theorem c1Core_of_pre {s s' : PbftReplica}
    (hl : ∀ op en', s'.log.get? op = some en' →
      (∃ en, s.log.get? op = some en ∧ en'.prepares = en.prepares ∧
        en'.commits = en.commits) ∨
      (en'.prepares = [] ∧ en'.commits = []))
    (op : Nat) : C1Core s s' op := by
  constructor
  · intro en en' he he'
    rcases hl op en' he' with ⟨en0, he0, hp, hc⟩ | ⟨hp, hc⟩
    · rw [he] at he0
      cases he0
      exact ⟨fun h1 h2 => absurd (hp.trans h1) h2,
        fun h1 h2 => absurd (hc.trans h1) h2⟩
    · exact ⟨fun _ h2 => absurd hp h2, fun _ h2 => absurd hc h2⟩
  · intro en' hn he'
    rcases hl op en' he' with ⟨en0, he0, _, _⟩ | hpc
    · rw [hn] at he0
      exact absurd he0 (by simp)
    · exact hpc

theorem c1Core_insertPrepare {s : PbftReplica} {p : Prepare}
    {s1 : PbftReplica} {out : List PbftOut}
    (h : s.insertPrepare p = some (s1, out)) (hw : QWF s) (op : Nat) :
    C1Core s s1 op := by
  obtain ⟨hne, hat, hnone⟩ := insertPrepare_log h
  by_cases hop : op = p.op_num
  · subst hop
    constructor
    · intro en en' he he'
      obtain ⟨en0, he0, hc, hdisj⟩ := hat en' he'
      rw [he] at he0
      cases he0
      constructor
      · intro h1 h2
        rcases hdisj with hdp | ⟨hemp, heq, hlen⟩
        · exact absurd (hdp.trans h1) h2
        · refine ⟨by omega, ?_⟩
          rw [heq]
          exact alKeys_pairwise_ne
            (alSorted_alInsert _ _ (QWF_pq_getD hw p.op_num))
      · intro h1 h2
        exact absurd (hc.trans h1) h2
    · intro en' hn he'
      rw [hnone hn] at he'
      exact absurd he' (by simp)
  · constructor
    · intro en en' he he'
      rw [hne op hop, he] at he'
      cases he'
      exact ⟨fun h1 h2 => absurd h1 h2, fun h1 h2 => absurd h1 h2⟩
    · intro en' hn he'
      rw [hne op hop, hn] at he'
      exact absurd he' (by simp)

theorem c1Core_insertCommit {s : PbftReplica} {c : Commit}
    {s1 : PbftReplica} {out : List PbftOut}
    (h : s.insertCommit c = some (s1, out)) (hw : QWF s) (op : Nat) :
    C1Core s s1 op := by
  obtain ⟨hne, hat, hnone⟩ := insertCommit_log h
  by_cases hop : op = c.op_num
  · subst hop
    constructor
    · intro en en' he he'
      obtain ⟨en0, he0, hp, hdisj⟩ := hat en' he'
      rw [he] at he0
      cases he0
      constructor
      · intro h1 h2
        exact absurd (hp.trans h1) h2
      · intro h1 h2
        rcases hdisj with hdc | ⟨hemp, hprep, heq, hlen⟩
        · exact absurd (hdc.trans h1) h2
        · refine ⟨hlen, ?_, hprep⟩
          rw [heq]
          exact alKeys_pairwise_ne
            (alSorted_alInsert _ _ (QWF_cq_getD hw c.op_num))
    · intro en' hn he'
      rw [hnone hn] at he'
      exact absurd he' (by simp)
  · constructor
    · intro en en' he he'
      rw [hne op hop, he] at he'
      cases he'
      exact ⟨fun h1 h2 => absurd h1 h2, fun h1 h2 => absurd h1 h2⟩
    · intro en' hn he'
      rw [hne op hop, hn] at he'
      exact absurd he' (by simp)

theorem c1Core_of_core {s t s' : PbftReplica} {op : Nat}
    (hlog : t.log = s.log) (hn : t.num_replica = s.num_replica)
    (hf : t.num_faulty = s.num_faulty)
    (h : C1Core t s' op) : C1Core s s' op := by
  constructor
  · intro en en' he he'
    rw [← hlog] at he
    have := h.1 en en' he he'
    rw [hn, hf] at this
    exact this
  · intro en' hn2 he'
    rw [← hlog] at hn2
    exact h.2 en' hn2 he'

/-- C1 (amended: the digest-agreement clause of the original claim is false
and is refuted by `C1_counterexample`): in every reachable PBFT replica state
and at every step, a log slot's `prepares` becomes non-empty only when the
newly installed quorum holds at least `num_replica - num_faulty - 1` entries
with pairwise-distinct replica-id keys, its `commits` becomes non-empty only
when the newly installed quorum holds at least `num_replica - num_faulty`
entries with pairwise-distinct replica-id keys and the slot's `prepares` is
already non-empty, and a slot fresh in the log has both fields empty. -/
theorem C1_theorem {s : PbftReplica} (hr : PbftReachable s) {e : PbftEvent}
    {s' : PbftReplica} {out : List PbftOut}
    (h : pbftStep s e = some (s', out)) (op : Nat) : C1Core s s' op := by
  have hw : QWF s := reachable_QWF hr
  cases e with
  | RecvRequest r =>
    dsimp only [pbftStep] at h
    exact c1Core_of_eq (handleRequest_quorums h).1 op
  | SignedPrePrepare pp reqs =>
    dsimp only [pbftStep] at h
    split at h
    · exact c1Core_of_pre (handleSignedPrePrepare_log h) op
    · exact absurd h (by simp)
  | RecvPrePrepare pp reqs =>
    dsimp only [pbftStep] at h
    exact c1Core_of_eq (handleRecvPrePrepare_fields h).2.1 op
  | VerifiedPrePrepare pp reqs =>
    dsimp only [pbftStep] at h
    split at h
    · exact c1Core_of_pre (handleVerifiedPrePrepare_log h) op
    · exact absurd h (by simp)
  | SignedPrepare p =>
    dsimp only [pbftStep] at h
    split at h
    · rcases handleSignedPrepare_case h with hlog | ⟨out1, hip⟩
      · exact c1Core_of_eq hlog op
      · exact c1Core_of_core rfl rfl rfl
          (c1Core_insertPrepare hip ⟨fun a b c => hw.1 a b c,
            fun a b c => hw.2 a b c⟩ op)
    · exact absurd h (by simp)
  | RecvPrepare p =>
    dsimp only [pbftStep] at h
    exact c1Core_of_eq (handleRecvPrepare_fields h).2.1 op
  | VerifiedPrepare p =>
    dsimp only [pbftStep] at h
    split at h
    · rcases handleVerifiedPrepare_case h with hlog | ⟨s1, out1, hip, hlog⟩
      · exact c1Core_of_eq hlog op
      · exact c1Core_of_core rfl rfl rfl
          (c1Core_congr (c1Core_insertPrepare hip ⟨fun a b c => hw.1 a b c,
            fun a b c => hw.2 a b c⟩ op) hlog)
    · exact absurd h (by simp)
  | SignedCommit c =>
    dsimp only [pbftStep] at h
    split at h
    · rcases handleSignedCommit_case h with hlog | ⟨out1, hic⟩
      · exact c1Core_of_eq hlog op
      · exact c1Core_of_core rfl rfl rfl
          (c1Core_insertCommit hic ⟨fun a b c => hw.1 a b c,
            fun a b c => hw.2 a b c⟩ op)
    · exact absurd h (by simp)
  | RecvCommit c =>
    dsimp only [pbftStep] at h
    exact c1Core_of_eq (handleRecvCommit_fields h).2.1 op
  | VerifiedCommit c =>
    dsimp only [pbftStep] at h
    split at h
    · rcases handleVerifiedCommit_case h with hlog | ⟨s1, out1, hic, hlog⟩
      · exact c1Core_of_eq hlog op
      · exact c1Core_of_core rfl rfl rfl
          (c1Core_congr (c1Core_insertCommit hic ⟨fun a b c => hw.1 a b c,
            fun a b c => hw.2 a b c⟩ op) hlog)
    · exact absurd h (by simp)

/-- C1 counterexample, against the digest clause of the original claim: on a
four-replica one-fault backup, a verified prepare with digest 0 from replica
2 is buffered in the quorum for op 1, the slot's pre-prepare (digest 0)
arrives, and a verified prepare with digest 1 from replica 3 then fills the
slot: `prepares` goes from empty to a quorum whose entries carry digests 0
and 1, so they do not all carry the digest of the slot's pre-prepare. -/
theorem C1_counterexample :
    ∃ s s' out en en' pp,
      pbftSteps (pbftInit 1 4 1) c1Events5 = some s ∧
      pbftStep s c1Event6 = some (s', out) ∧
      s.log.get? 1 = some en ∧ en.prepares = [] ∧
      s'.log.get? 1 = some en' ∧ en'.prepares ≠ [] ∧
      en'.pre_prepare = some pp ∧
      ¬ ∀ pr ∈ en'.prepares, pr.2.digest = pp.digest := by
  refine ⟨c1S5, c1S6.1, c1S6.2, (c1S5.log.get? 1).getD emptyLogEntry,
    (c1S6.1.log.get? 1).getD emptyLogEntry,
    ((c1S6.1.log.get? 1).getD emptyLogEntry).pre_prepare.getD
      (PrePrepare.mk 0 0 0),
    by decide, by decide, by decide, by decide, by decide, by decide,
    by decide, by decide⟩

/-- Witness for `C1_theorem`: a concrete reachable two-replica state in
which a verified prepare fills slot 1, discharging both hypotheses by
evaluation. -/
theorem C1_witness : C1Core c1WS c1WSpair.1 1 :=
  C1_theorem ⟨1, 2, 1, c1WEvents3, by decide⟩
    (show pbftStep c1WS c1WEvent4 = some (c1WSpair.1, c1WSpair.2)
      from by decide) 1
